import Mathlib

/-!
# Campus navigation routing core: a shallow embedding

This file embeds the routing core of `src/src/components/CampusMap.js`:
the graph builder (`buildAdjacencyList`), the nearest-node resolver
(`findNearestNode`), the shortest-path engine (`dijkstra`) and the
navigation orchestration (`handleNavigation`), and proves the spec's
claims about them.

Modelling conventions:
* JavaScript numbers are modelled as rationals (`ℚ`); coordinates are
  pairs of rationals.  `JSON.stringify`-string keys are injective on
  coordinate pairs, so node keys are modelled directly as coordinates.
* JavaScript objects are insertion-ordered maps; they are modelled as
  association lists (`List (key × value)`), where assignment to an
  existing key updates in place and assignment to a fresh key appends.
* `L.latLng(a).distanceTo(b)` is a call into the external Leaflet
  library (not part of this repository); the spec treats it as "the
  real-world distance".  All definitions are parametric in a distance
  function `d : Coord → Coord → ℚ`; `distL1` below is a concrete
  symmetric instance used to evaluate witnesses.
* `distances[x]` values live in `Option (WithTop ℚ)`: `none` models
  JavaScript `undefined` (key absent), `some ⊤` models `Infinity`,
  `some (q : ℚ)` a finite number.  `jsLt`/`jsAdd` mirror JavaScript
  `<` and `+` on these values (comparisons with `undefined` are false).
-/

abbrev Coord := ℚ × ℚ

abbrev Adj := List (Coord × ℚ)

abbrev Graph := List (Coord × Adj)

/-- JavaScript object assignment `m[k] = v` on an adjacency object:
update the entry in place when the key exists, else append. -/
def setKey (m : Adj) (k : Coord) (v : ℚ) : Adj :=
  if (m.lookup k).isSome then
    m.map (fun e => if e.1 = k then (k, v) else e)
  else m ++ [(k, v)]

/-- `if (!graph[key]) graph[key] = {}` from `buildAdjacencyList`. -/
def ensureNode (g : Graph) (k : Coord) : Graph :=
  if (g.lookup k).isSome then g else g ++ [(k, [])]

/-- `graph[a][b] = w`: update node `a`'s adjacency object. -/
def setEdge (g : Graph) (a b : Coord) (w : ℚ) : Graph :=
  g.map (fun e => if e.1 = a then (e.1, setKey e.2 b w) else e)

/-- One iteration of the inner loop of `buildAdjacencyList` (lines 48–59):
ensure both endpoints exist, compute the distance, insert symmetrically. -/
def addSegment (d : Coord → Coord → ℚ) (g : Graph) (pq : Coord × Coord) : Graph :=
  setEdge (setEdge (ensureNode (ensureNode g pq.1) pq.2) pq.1 pq.2 (d pq.1 pq.2))
    pq.2 pq.1 (d pq.1 pq.2)

/-- Walk one road feature's coordinate sequence pairwise. -/
def addFeature (d : Coord → Coord → ℚ) (g : Graph) (coords : List Coord) : Graph :=
  (coords.zip coords.tail).foldl (addSegment d) g

/-- `buildAdjacencyList` (lines 44–62).  Each road feature's coordinates
arrive in source (longitude, latitude) order and are transposed by
`([lng, lat]) => [lat, lng]` (line 47), modelled by `Prod.swap`. -/
def buildAdjacencyList (d : Coord → Coord → ℚ) (roads : List (List Coord)) : Graph :=
  roads.foldl (fun g f => addFeature d g (f.map Prod.swap)) []

/-- The node-key list of a graph (`Object.keys(adjacencyList)`). -/
def nodeKeys (g : Graph) : List Coord := g.map Prod.fst

/-- Absolute value written with an explicit conditional so that concrete
instances reduce by kernel evaluation. -/
def qabs (x : ℚ) : ℚ := if x < 0 then -x else x

/-- A concrete symmetric distance function used to instantiate witnesses
(the library distance itself is external to the repository). -/
def distL1 (a b : Coord) : ℚ := qabs (a.1 - b.1) + qabs (a.2 - b.2)

/-- `findNearestNode` (lines 64–78): linear scan with strict `<` against
the running minimum (initially `Infinity`, modelled by `none`). -/
def findNearestNode (d : Coord → Coord → ℚ) (g : Graph) (latlng : Coord) :
    Option Coord :=
  ((nodeKeys g).foldl
    (fun (acc : Option Coord × Option ℚ) node =>
      match acc.2 with
      | none => (some node, some (d latlng node))
      | some m => if d latlng node < m then (some node, some (d latlng node)) else acc)
    (none, none)).1

/-- JavaScript `<` on distance values: comparisons involving
`undefined` are false; `Infinity < Infinity` is false. -/
def jsLt : Option (WithTop ℚ) → Option (WithTop ℚ) → Bool
  | some a, some b => decide (a < b)
  | _, _ => false

/-- JavaScript `+` of a distance value and a finite edge weight:
`undefined + w` is `NaN`, which compares as false everywhere, so it is
modelled by `none`. -/
def jsAdd : Option (WithTop ℚ) → ℚ → Option (WithTop ℚ)
  | some a, w => some (a + (w : WithTop ℚ))
  | none, _ => none

abbrev DistM := Coord → Option (WithTop ℚ)

abbrev PrevM := Coord → Option Coord

/-- `Array.from(unvisited).reduce((minNode, node) => distances[node] <
distances[minNode] ? node : minNode)` (lines 95–97): `reduce` with no
initial value starts from the first element. -/
def selectMin (D : DistM) (u : Coord) (us : List Coord) : Coord :=
  us.foldl (fun m n => if jsLt (D n) (D m) then n else m) u

/-- The selected minimum is one of the unvisited nodes. -/
theorem selectMin_mem (D : DistM) (u : Coord) (us : List Coord) :
    selectMin D u us ∈ u :: us := by
  simp only [selectMin]
  induction us generalizing u with
  | nil => simp
  | cons v vs ih =>
    simp only [List.foldl_cons]
    by_cases hc : jsLt (D v) (D u) = true
    · simp only [if_pos hc]
      rcases List.mem_cons.mp (ih v) with h | h <;> simp [h]
    · simp only [if_neg hc]
      rcases List.mem_cons.mp (ih u) with h | h <;> simp [h]

/-- The relaxation loop over `Object.keys(adjacencyList[current])`
(lines 104–111). -/
def relax (adj : Adj) (current : Coord) (dp : DistM × PrevM) : DistM × PrevM :=
  adj.foldl
    (fun dp e =>
      let alt := jsAdd (dp.1 current) e.2
      if jsLt alt (dp.1 e.1) then
        (fun x => if x = e.1 then alt else dp.1 x,
         fun x => if x = e.1 then some current else dp.2 x)
      else dp)
    dp

/-- The main `while (unvisited.size)` loop of `dijkstra` (lines 94–112).
Each iteration selects the minimum-distance unvisited node, exits when
its distance is `Infinity` or it is `end`, and otherwise removes it and
relaxes its neighbors. -/
def dijkstraLoop (g : Graph) (endK : Coord) :
    List Coord → DistM × PrevM → DistM × PrevM
  | [], dp => dp
  | u :: us, dp =>
    let current := selectMin dp.1 u us
    if dp.1 current = some ⊤ then dp
    else if current = endK then dp
    else
      dijkstraLoop g endK ((u :: us).erase current)
        (relax ((g.lookup current).getD []) current dp)
termination_by l _ => l.length
decreasing_by
  simp only [List.length_erase, if_pos (selectMin_mem dp.1 u us)]
  simp

/-- A fuel-bounded variant of the main loop, used to state that the
loop performs at most as many iterations as there are unvisited nodes. -/
def dijkstraLoopFuel (g : Graph) (endK : Coord) :
    Nat → List Coord → DistM × PrevM → DistM × PrevM
  | 0, _, dp => dp
  | _ + 1, [], dp => dp
  | n + 1, u :: us, dp =>
    let current := selectMin dp.1 u us
    if dp.1 current = some ⊤ then dp
    else if current = endK then dp
    else
      dijkstraLoopFuel g endK n ((u :: us).erase current)
        (relax ((g.lookup current).getD []) current dp)

/-- Path reconstruction (lines 114–119): `while (step) { path.unshift(step);
step = previous[step]; }`.  The fuel bound `|nodes| + 1` is never reached
when the predecessor links are acyclic (they always are for the
non-negative weights produced by the builder). -/
def reconstruct (P : PrevM) : Nat → Option Coord → List Coord → List Coord
  | _, none, path => path
  | 0, some _, path => path
  | n + 1, some step, path => reconstruct P n (P step) (step :: path)

/-- The initial distance map of `dijkstra` (lines 87–92): every known
node gets `Infinity`, then `distances[start] = 0` (which creates the key
even when `start` is not a node). -/
def initDist (g : Graph) (s : Coord) : DistM :=
  fun x => if x = s then some 0 else if x ∈ nodeKeys g then some (⊤ : WithTop ℚ) else none

/-- The final `(distances, previous)` state computed by the engine. -/
def dijkstraState (g : Graph) (s e : Coord) : DistM × PrevM :=
  dijkstraLoop g e (nodeKeys g) (initDist g s, fun _ => none)

/-- `dijkstra` (lines 80–122).  `none` models the `{ path: null }`
result returned when either key is null; otherwise the reconstructed
path is returned. -/
def dijkstra (g : Graph) (start? end? : Option Coord) : Option (List Coord) :=
  match start?, end? with
  | some s, some e =>
    let dp := dijkstraState g s e
    some (reconstruct dp.2 ((nodeKeys g).length + 1) (some e) [])
  | _, _ => none

/-- The route-storing tail of `handleNavigation` (lines 139–144): a null
path or a path of length < 2 resets the stored route, otherwise the path
is stored. -/
def storeRoute (path? : Option (List Coord)) : Option (List Coord) :=
  match path? with
  | none => none
  | some p => if p.length < 2 then none else some p

/-- The component state read and written by `handleNavigation`:
selected names, point-of-interest features (name, source-order
coordinate), the adjacency list, and the stored route. -/
structure NavState where
  startPoint : Option String
  endPoint : Option String
  points : List (String × Coord)
  graph : Graph
  route : Option (List Coord)
deriving DecidableEq

/-- `handleNavigation` (lines 124–145).  Early `return alert(...)` exits
leave the state unchanged; point coordinates are transposed
(`[coords[1], coords[0]]`, lines 132–133) before nearest-node
resolution. -/
def handleNavigation (d : Coord → Coord → ℚ) (st : NavState) : NavState :=
  match st.startPoint, st.endPoint with
  | some sp, some ep =>
    match st.points.lookup sp, st.points.lookup ep with
    | some sc, some ec =>
      match findNearestNode d st.graph (Prod.swap sc),
            findNearestNode d st.graph (Prod.swap ec) with
      | some sn, some en =>
        { st with route := storeRoute (dijkstra st.graph (some sn) (some en)) }
      | _, _ => st
    | _, _ => st
  | _, _ => st

/-- The weight observed when looking up the edge `a → b`
(`adjacencyList[a][b]`). -/
def edgeW (g : Graph) (a b : Coord) : Option ℚ :=
  (g.lookup a).bind fun adj => adj.lookup b

/-- Total weight of a node sequence; `none` when the sequence is empty
or some consecutive pair is not an edge of the graph. -/
def walkW (g : Graph) : List Coord → Option ℚ
  | [] => none
  | [_] => some 0
  | a :: b :: rest => (edgeW g a b).bind fun w => (walkW g (b :: rest)).map (w + ·)

/-- A walk from `s` to `e` along edges of `g`. -/
def IsWalkFrom (g : Graph) (s e : Coord) (p : List Coord) : Prop :=
  p.head? = some s ∧ p.getLast? = some e ∧ (walkW g p).isSome

/-- Well-formedness facts true of every JavaScript object-of-objects:
no duplicate keys at either level. -/
def WFgraph (g : Graph) : Prop :=
  (nodeKeys g).Nodup ∧ ∀ e ∈ g, (e.2.map Prod.fst).Nodup

/-- All edge weights of the graph are non-negative (the spec guarantees
this by construction: weights are real-world distances). -/
def NonnegW (g : Graph) : Prop :=
  ∀ e ∈ g, ∀ bw ∈ e.2, 0 ≤ bw.2

instance : DecidablePred WFgraph := fun g => by
  unfold WFgraph
  infer_instance

instance : DecidablePred NonnegW := fun g => by
  unfold NonnegW
  infer_instance

/-! ## Lookup lemmas for the JavaScript object model -/

theorem lookup_cons_pair {α β : Type} [BEq α] [LawfulBEq α] [DecidableEq α] (a k : α) (b : β)
    (l : List (α × β)) :
    ((a, b) :: l).lookup k = if k = a then some b else l.lookup k := by
  by_cases h : k = a
  · subst h
    simp [List.lookup]
  · have hb : (k == a) = false := by simpa using h
    simp [List.lookup, hb, h]

theorem lookup_append_pairs {α β : Type} [BEq α] [LawfulBEq α] [DecidableEq α]
    (l₁ l₂ : List (α × β)) (k : α) :
    (l₁ ++ l₂).lookup k =
      match l₁.lookup k with
      | some v => some v
      | none => l₂.lookup k := by
  induction l₁ with
  | nil => simp [List.lookup]
  | cons e l ih =>
    obtain ⟨a, b⟩ := e
    rw [List.cons_append, lookup_cons_pair, lookup_cons_pair]
    by_cases h : k = a
    · simp [h]
    · simp only [if_neg h, ih]

theorem lookup_map_set (m : Adj) (k k' : Coord) (v : ℚ) :
    (m.map (fun e => if e.1 = k then (k, v) else e)).lookup k' =
      if k' = k then ((m.lookup k).map (fun _ => v)) else m.lookup k' := by
  induction m with
  | nil => by_cases h : k' = k <;> simp [List.lookup, h]
  | cons e m ih =>
    obtain ⟨a, b⟩ := e
    simp only [List.map_cons]
    by_cases hak : a = k
    · subst hak
      simp only [if_pos rfl]
      by_cases h' : k' = a
      · subst h'
        simp [lookup_cons_pair]
      · simp [lookup_cons_pair, h', ih]
    · have hka : ¬ k = a := fun h => hak h.symm
      rw [if_neg (by simpa using hak)]
      by_cases h' : k' = a
      · subst h'
        simp [lookup_cons_pair, hak, hka]
      · simp [lookup_cons_pair, h', hka, ih]

theorem lookup_setKey (m : Adj) (k k' : Coord) (v : ℚ) :
    (setKey m k v).lookup k' = if k' = k then some v else m.lookup k' := by
  unfold setKey
  by_cases hs : (m.lookup k).isSome
  · rw [if_pos hs, lookup_map_set]
    obtain ⟨a, ha⟩ := Option.isSome_iff_exists.mp hs
    simp [ha]
  · rw [if_neg hs, lookup_append_pairs]
    rw [Option.not_isSome_iff_eq_none] at hs
    by_cases h' : k' = k
    · subst h'
      simp [hs, lookup_cons_pair]
    · rw [if_neg h']
      cases hg : m.lookup k' with
      | some w => rfl
      | none => simp [lookup_cons_pair, h']

theorem lookup_ensureNode (g : Graph) (k k' : Coord) :
    (ensureNode g k).lookup k' =
      if k' = k then some ((g.lookup k).getD []) else g.lookup k' := by
  unfold ensureNode
  by_cases hs : (g.lookup k).isSome
  · rw [if_pos hs]
    obtain ⟨a, ha⟩ := Option.isSome_iff_exists.mp hs
    by_cases h' : k' = k
    · subst h'
      simp [ha]
    · rw [if_neg h']
  · rw [if_neg hs, lookup_append_pairs]
    rw [Option.not_isSome_iff_eq_none] at hs
    by_cases h' : k' = k
    · subst h'
      simp [hs, lookup_cons_pair]
    · rw [if_neg h']
      cases hg : g.lookup k' with
      | some v => rfl
      | none => simp [lookup_cons_pair, h']

theorem lookup_setEdge (g : Graph) (a b : Coord) (w : ℚ) (x : Coord) :
    (setEdge g a b w).lookup x =
      if x = a then (g.lookup a).map (fun adj => setKey adj b w)
      else g.lookup x := by
  induction g with
  | nil => by_cases h : x = a <;> simp [setEdge, List.lookup, h]
  | cons e g ih =>
    obtain ⟨c, adj⟩ := e
    simp only [setEdge, List.map_cons] at ih ⊢
    by_cases hca : c = a
    · subst hca
      simp only [if_pos rfl]
      by_cases hx : x = c
      · subst hx
        simp [lookup_cons_pair]
      · simp [lookup_cons_pair, hx, ih]
    · have hac : ¬ a = c := fun h => hca h.symm
      rw [if_neg (by simpa using hca)]
      by_cases hx : x = c
      · subst hx
        simp [lookup_cons_pair, hca, hac]
      · simp [lookup_cons_pair, hx, hac, ih]

theorem edgeW_addSegment (d : Coord → Coord → ℚ) (g : Graph) (p q x y : Coord) :
    edgeW (addSegment d g (p, q)) x y =
      if x = q ∧ y = p then some (d p q)
      else if x = p ∧ y = q then some (d p q)
      else edgeW g x y := by
  unfold addSegment edgeW
  rw [lookup_setEdge]
  by_cases hxq : x = q
  · subst hxq
    rw [if_pos rfl, lookup_setEdge]
    by_cases hqp : x = p
    · subst hqp
      rw [if_pos rfl, lookup_ensureNode, if_pos rfl, lookup_ensureNode, if_pos rfl]
      simp only [Option.getD_some, Option.map_some, Option.map_some', Option.some_bind,
        Option.bind_some]
      rw [lookup_setKey, lookup_setKey]
      by_cases hy : y = x
      · simp [hy]
      · rw [if_neg hy, if_neg hy]
        cases hg : g.lookup x with
        | some adj => simp [hg, hy]
        | none => simp [hg, List.lookup, hy]
    · rw [if_neg hqp, lookup_ensureNode, if_pos rfl, lookup_ensureNode, if_neg hqp]
      simp only [Option.map_some, Option.map_some', Option.some_bind, Option.bind_some]
      rw [lookup_setKey]
      by_cases hy : y = p
      · simp [hy]
      · rw [if_neg hy]
        cases hg : g.lookup x with
        | some adj => simp [hg, hy, hqp]
        | none => simp [hg, List.lookup, hy, hqp]
  · rw [if_neg hxq, lookup_setEdge]
    by_cases hxp : x = p
    · subst hxp
      rw [if_pos rfl, lookup_ensureNode, if_neg hxq, lookup_ensureNode, if_pos rfl]
      simp only [Option.map_some, Option.map_some', Option.some_bind, Option.bind_some]
      rw [lookup_setKey]
      by_cases hy : y = q
      · simp [hy, hxq]
      · rw [if_neg hy]
        cases hg : g.lookup x with
        | some adj => simp [hg, hy, hxq]
        | none => simp [hg, List.lookup, hy, hxq]
    · rw [if_neg hxp, lookup_ensureNode, if_neg hxq, lookup_ensureNode, if_neg hxp]
      simp [hxq, hxp]

theorem selectMin_none (D : DistM) (u : Coord) (us : List Coord) (h : D u = none) :
    selectMin D u us = u := by
  simp only [selectMin]
  induction us with
  | nil => rfl
  | cons v vs ih =>
    simp only [List.foldl_cons]
    have : jsLt (D v) (D u) = false := by
      rw [h]
      cases D v <;> rfl
    rw [this]
    simp only [Bool.false_eq_true, if_false]
    exact ih

theorem jsLt_none_right (a : Option (WithTop ℚ)) : jsLt a none = false := by
  cases a <;> rfl

theorem jsLt_none_left (a : Option (WithTop ℚ)) : jsLt none a = false := by
  cases a <;> rfl

theorem jsLt_selectMin (D : DistM) (u : Coord) (us : List Coord) :
    ∀ x ∈ u :: us, jsLt (D x) (D (selectMin D u us)) = false := by
  induction us generalizing u with
  | nil =>
    intro x hx
    simp only [List.mem_singleton] at hx
    subst hx
    simp only [selectMin, List.foldl_nil]
    cases h : D x with
    | none => rfl
    | some a => simp [jsLt]
  | cons v vs ih =>
    intro x hx
    have hsel : selectMin D u (v :: vs) =
        selectMin D (if jsLt (D v) (D u) then v else u) vs := by
      simp only [selectMin, List.foldl_cons]
    rw [hsel]
    by_cases hc : jsLt (D v) (D u) = true
    · rw [if_pos hc]
      rcases List.mem_cons.mp hx with hx1 | hx2
    
      · subst hx1
        obtain ⟨dv, du, hv, hu, hlt⟩ :
            ∃ dv du, D v = some dv ∧ D x = some du ∧ dv < du := by
          revert hc
          cases hv : D v <;> cases hu : D x <;> simp [jsLt]
        have hvm := ih v v (List.mem_cons_self v vs)
        cases hm : D (selectMin D v vs) with
        | none => rw [jsLt_none_right]
        | some a =>
          rw [hv, hm] at hvm
          have hav : a ≤ dv := not_lt.mp (by simpa [jsLt] using hvm)
          rw [hu]
          simp only [jsLt, decide_eq_false_iff_not, not_lt]
          exact hav.trans hlt.le
      · exact ih v x hx2
    · rw [if_neg hc]
      rcases List.mem_cons.mp hx with hx1 | hx2
      · subst hx1
        exact ih x x (List.mem_cons_self x vs)
      · rcases List.mem_cons.mp hx2 with hx3 | hx4
        · subst hx3
          cases hu : D u with
          | none =>
            rw [selectMin_none D u vs hu, hu, jsLt_none_right]
          | some du =>
            cases hv : D x with
            | none => rw [jsLt_none_left]
            | some dv =>
              have hdu : du ≤ dv := by
                rw [hu, hv] at hc
                simpa [jsLt, not_lt] using hc
              have hum := ih u u (List.mem_cons_self u vs)
              cases hm : D (selectMin D u vs) with
              | none => rw [jsLt_none_right]
              | some a =>
                rw [hu, hm] at hum
                have hau : a ≤ du := not_lt.mp (by simpa [jsLt] using hum)
                simp only [jsLt, decide_eq_false_iff_not, not_lt]
                exact hau.trans hdu
        · exact ih u x (List.mem_cons.mpr (Or.inr hx4))

theorem dijkstraLoop_nil (g : Graph) (endK : Coord) (dp : DistM × PrevM) :
    dijkstraLoop g endK [] dp = dp := by
  rw [dijkstraLoop]

theorem dijkstraLoop_cons (g : Graph) (endK u : Coord) (us : List Coord)
    (dp : DistM × PrevM) :
    dijkstraLoop g endK (u :: us) dp =
      if dp.1 (selectMin dp.1 u us) = some ⊤ then dp
      else if selectMin dp.1 u us = endK then dp
      else
        dijkstraLoop g endK ((u :: us).erase (selectMin dp.1 u us))
          (relax ((g.lookup (selectMin dp.1 u us)).getD []) (selectMin dp.1 u us) dp) := by
  rw [dijkstraLoop]

/-- C10 helper: the fueled loop agrees with the loop whenever the fuel is
at least the number of unvisited nodes. -/
theorem dijkstraLoopFuel_eq (g : Graph) (endK : Coord) :
    ∀ (n : Nat) (U : List Coord) (dp : DistM × PrevM), U.length ≤ n →
      dijkstraLoopFuel g endK n U dp = dijkstraLoop g endK U dp := by
  intro n
  induction n with
  | zero =>
    intro U dp h
    have : U = [] := List.eq_nil_of_length_eq_zero (Nat.le_zero.mp h)
    subst this
    rw [dijkstraLoop_nil]
    rfl
  | succ n ih =>
    intro U dp h
    cases U with
    | nil => rw [dijkstraLoop_nil]; rfl
    | cons u us =>
      rw [dijkstraLoop_cons]
      show (if dp.1 (selectMin dp.1 u us) = some ⊤ then dp
        else if selectMin dp.1 u us = endK then dp
        else dijkstraLoopFuel g endK n ((u :: us).erase (selectMin dp.1 u us))
          (relax ((g.lookup (selectMin dp.1 u us)).getD []) (selectMin dp.1 u us) dp)) = _
      by_cases h1 : dp.1 (selectMin dp.1 u us) = some ⊤
      · rw [if_pos h1, if_pos h1]
      · rw [if_neg h1, if_neg h1]
        by_cases h2 : selectMin dp.1 u us = endK
        · rw [if_pos h2, if_pos h2]
        · rw [if_neg h2, if_neg h2]
          apply ih
          rw [List.length_erase, if_pos (selectMin_mem dp.1 u us)]
          simp only [List.length_cons] at h ⊢
          omega

theorem reconstruct_succ (P : PrevM) (n : Nat) (step : Coord) (path : List Coord) :
    reconstruct P (n + 1) (some step) path = reconstruct P n (P step) (step :: path) := rfl

theorem reconstruct_none (P : PrevM) (n : Nat) (path : List Coord) :
    reconstruct P n none path = path := by cases n <;> rfl

theorem dijkstra_self (g : Graph) (s : Coord) (hs : s ∈ nodeKeys g) :
    dijkstra g (some s) (some s) = some [s] := by
  have hD0 : initDist g s s = some 0 := by simp [initDist]
  have hstate : dijkstraState g s s = (initDist g s, fun _ => none) := by
    unfold dijkstraState
    cases hk : nodeKeys g with
    | nil => rw [hk] at hs; cases hs
    | cons u us =>
      rw [hk] at hs
      rw [dijkstraLoop_cons]
      have hmin : selectMin (initDist g s) u us = s := by
        by_contra hne
        have hm := selectMin_mem (initDist g s) u us
        have hDm : initDist g s (selectMin (initDist g s) u us) = some ⊤ := by
          simp only [initDist]
          rw [if_neg hne, if_pos (by rw [hk]; exact hm)]
        have hjs := jsLt_selectMin (initDist g s) u us s hs
        rw [hD0, hDm] at hjs
        simp only [jsLt, decide_eq_false_iff_not, not_lt] at hjs
        exact absurd (hjs.trans_lt (lt_top_iff_ne_top.mpr WithTop.zero_ne_top)) (lt_irrefl _)
      simp only [hmin]
      rw [hD0]
      have h0t : (some (0 : WithTop ℚ) : Option (WithTop ℚ)) ≠ some ⊤ := by
        simp [WithTop.zero_ne_top]
      rw [if_neg h0t]
      simp
  have hred : dijkstra g (some s) (some s) =
      some (reconstruct (dijkstraState g s s).2 ((nodeKeys g).length + 1) (some s) []) := rfl
  rw [hred, hstate]
  simp only [reconstruct_succ, reconstruct_none]

/-- Symmetry invariant: every stored edge is stored in both directions
with the same weight. -/
def SymmG (g : Graph) : Prop :=
  ∀ a b : Coord, ∀ w : ℚ, edgeW g a b = some w → edgeW g b a = some w

theorem symmG_addSegment (d : Coord → Coord → ℚ) (g : Graph) (pq : Coord × Coord)
    (h : SymmG g) : SymmG (addSegment d g pq) := by
  obtain ⟨p, q⟩ := pq
  intro a b w hab
  rw [edgeW_addSegment] at hab ⊢
  by_cases h1 : a = q ∧ b = p
  · rw [if_pos h1, Option.some_inj] at hab
    subst hab
    by_cases h2 : b = q ∧ a = p
    · rw [if_pos h2]
    · rw [if_neg h2, if_pos ⟨h1.2, h1.1⟩]
  · rw [if_neg h1] at hab
    by_cases h2 : a = p ∧ b = q
    · rw [if_pos h2, Option.some_inj] at hab
      subst hab
      rw [if_pos ⟨h2.2, h2.1⟩]
    · rw [if_neg h2] at hab
      by_cases h3 : b = q ∧ a = p
      · exact absurd ⟨h3.2, h3.1⟩ h2
      · rw [if_neg h3]
        by_cases h4 : b = p ∧ a = q
        · exact absurd ⟨h4.2, h4.1⟩ h1
        · rw [if_neg h4]
          exact h a b w hab

theorem symmG_addFeature (d : Coord → Coord → ℚ) (g : Graph) (coords : List Coord)
    (h : SymmG g) : SymmG (addFeature d g coords) := by
  unfold addFeature
  generalize coords.zip coords.tail = pairs
  induction pairs generalizing g with
  | nil => exact h
  | cons pq rest ih =>
    rw [List.foldl_cons]
    exact ih (addSegment d g pq) (symmG_addSegment d g pq h)

theorem symmG_build (d : Coord → Coord → ℚ) (roads : List (List Coord)) :
    SymmG (buildAdjacencyList d roads) := by
  unfold buildAdjacencyList
  have hbase : SymmG ([] : Graph) := by
    intro a b w hab
    simp [edgeW, List.lookup] at hab
  generalize hg : ([] : Graph) = g0
  rw [hg] at hbase
  clear hg
  induction roads generalizing g0 with
  | nil => exact hbase
  | cons f rest ih =>
    rw [List.foldl_cons]
    exact ih _ (symmG_addFeature d g0 (f.map Prod.swap) hbase)

/-- No-self-loop invariant. -/
def NoSelfLoop (g : Graph) : Prop := ∀ x : Coord, edgeW g x x = none

theorem noSelfLoop_addSegment (d : Coord → Coord → ℚ) (g : Graph)
    (pq : Coord × Coord) (hpq : pq.1 ≠ pq.2) (h : NoSelfLoop g) :
    NoSelfLoop (addSegment d g pq) := by
  obtain ⟨p, q⟩ := pq
  intro x
  rw [edgeW_addSegment]
  rw [if_neg (fun (hc : x = q ∧ x = p) => hpq (hc.2.symm.trans hc.1)),
    if_neg (fun (hc : x = p ∧ x = q) => hpq (hc.1.symm.trans hc.2))]
  exact h x

theorem noSelfLoop_addFeature (d : Coord → Coord → ℚ) (g : Graph)
    (coords : List Coord) (hc : ∀ pq ∈ coords.zip coords.tail, pq.1 ≠ pq.2)
    (h : NoSelfLoop g) : NoSelfLoop (addFeature d g coords) := by
  unfold addFeature
  revert hc
  generalize coords.zip coords.tail = pairs
  intro hc
  induction pairs generalizing g with
  | nil => exact h
  | cons pq rest ih =>
    rw [List.foldl_cons]
    exact ih (addSegment d g pq)
      (noSelfLoop_addSegment d g pq (hc pq (List.mem_cons_self pq rest)) h)
      (fun r hr => hc r (List.mem_cons.mpr (Or.inr hr)))

theorem noSelfLoop_build (d : Coord → Coord → ℚ) (roads : List (List Coord))
    (h : ∀ f ∈ roads, ∀ pq ∈ f.zip f.tail, pq.1 ≠ pq.2) :
    NoSelfLoop (buildAdjacencyList d roads) := by
  unfold buildAdjacencyList
  have hbase : NoSelfLoop ([] : Graph) := fun x => by simp [edgeW, List.lookup]
  generalize hg : ([] : Graph) = g0
  rw [hg] at hbase
  clear hg
  induction roads generalizing g0 with
  | nil => exact hbase
  | cons f rest ih =>
    rw [List.foldl_cons]
    refine ih (fun f' hf' => h f' (List.mem_cons.mpr (Or.inr hf'))) _
      (noSelfLoop_addFeature d g0 (f.map Prod.swap) ?_ hbase)
    intro pq hpq
    have htail : (f.map Prod.swap).tail = f.tail.map Prod.swap := by
      cases f <;> rfl
    rw [htail, List.zip_map] at hpq
    obtain ⟨r, hr, hrep⟩ := List.mem_map.mp hpq
    have hne := h f (List.mem_cons_self f rest) r hr
    subst hrep
    simp only [Prod.map]
    intro hcc
    exact hne (Prod.swap_injective hcc)

theorem edgeW_addSegment_latest (d : Coord → Coord → ℚ) (g : Graph) (p q : Coord) :
    edgeW (addSegment d g (p, q)) p q = some (d p q) ∧
    edgeW (addSegment d g (p, q)) q p = some (d p q) := by
  constructor <;> rw [edgeW_addSegment]
  · by_cases hpq : p = q
    · subst hpq
      simp
    · rw [if_neg (fun (hc : p = q ∧ q = p) => hpq hc.1), if_pos ⟨rfl, rfl⟩]
  · rw [if_pos ⟨rfl, rfl⟩]

example (d : Coord → Coord → ℚ) :
    buildAdjacencyList d [[((0:ℚ), (0:ℚ)), ((0:ℚ), (1:ℚ))], [((0:ℚ), (1:ℚ)), ((0:ℚ), (0:ℚ))]] =
      [(((0:ℚ), (0:ℚ)), [(((1:ℚ), (0:ℚ)), d ((1:ℚ), (0:ℚ)) ((0:ℚ), (0:ℚ)))]),
       (((1:ℚ), (0:ℚ)), [(((0:ℚ), (0:ℚ)), d ((1:ℚ), (0:ℚ)) ((0:ℚ), (0:ℚ)))])] := by
  rfl

/-- Recursive reference form of the `findNearestNode` scan. -/
def nearMin (d : Coord → Coord → ℚ) (t : Coord) : Coord → ℚ → List Coord → Coord × ℚ
  | n₀, m₀, [] => (n₀, m₀)
  | n₀, m₀, x :: xs =>
    if d t x < m₀ then nearMin d t x (d t x) xs else nearMin d t n₀ m₀ xs

theorem foldl_nearMin (d : Coord → Coord → ℚ) (t : Coord) :
    ∀ (l : List Coord) (n₀ : Coord) (m₀ : ℚ),
      l.foldl
        (fun (acc : Option Coord × Option ℚ) node =>
          match acc.2 with
          | none => (some node, some (d t node))
          | some m => if d t node < m then (some node, some (d t node)) else acc)
        (some n₀, some m₀)
      = (some (nearMin d t n₀ m₀ l).1, some (nearMin d t n₀ m₀ l).2) := by
  intro l
  induction l with
  | nil => intro n₀ m₀; rfl
  | cons x xs ih =>
    intro n₀ m₀
    rw [List.foldl_cons]
    show xs.foldl _
        (if d t x < m₀ then ((some x, some (d t x)) : Option Coord × Option ℚ)
         else (some n₀, some m₀)) = _
    by_cases hc : d t x < m₀
    · rw [if_pos hc, ih]
      have hnm : nearMin d t n₀ m₀ (x :: xs) = nearMin d t x (d t x) xs := by
        rw [nearMin, if_pos hc]
      rw [hnm]
    · rw [if_neg hc, ih]
      have hnm : nearMin d t n₀ m₀ (x :: xs) = nearMin d t n₀ m₀ xs := by
        rw [nearMin, if_neg hc]
      rw [hnm]

theorem nearMin_spec (d : Coord → Coord → ℚ) (t : Coord) :
    ∀ (l : List Coord) (n₀ : Coord),
      ∃ n : Coord, nearMin d t n₀ (d t n₀) l = (n, d t n) ∧
        (∃ l₁ l₂, n₀ :: l = l₁ ++ n :: l₂ ∧ ∀ y ∈ l₁, d t n < d t y) ∧
        ∀ y ∈ n₀ :: l, d t n ≤ d t y := by
  intro l
  induction l with
  | nil =>
    intro n₀
    exact ⟨n₀, rfl, ⟨[], [], rfl, by simp⟩, by simp⟩
  | cons x xs ih =>
    intro n₀
    have hred : nearMin d t n₀ (d t n₀) (x :: xs) =
        if d t x < d t n₀ then nearMin d t x (d t x) xs
        else nearMin d t n₀ (d t n₀) xs := rfl
    by_cases hc : d t x < d t n₀
    · rw [hred, if_pos hc]
      obtain ⟨n, heq, ⟨l₁, l₂, hsplit, hl₁⟩, hmin⟩ := ih x
      refine ⟨n, heq, ⟨n₀ :: l₁, l₂, ?_, ?_⟩, ?_⟩
      · rw [List.cons_append, ← hsplit]
      · intro y hy
        rcases List.mem_cons.mp hy with hy1 | hy2
        · subst hy1
          exact lt_of_le_of_lt (hmin x (List.mem_cons_self x xs)) hc
        · exact hl₁ y hy2
      · intro y hy
        rcases List.mem_cons.mp hy with hy1 | hy2
        · subst hy1
          exact le_of_lt (lt_of_le_of_lt (hmin x (List.mem_cons_self x xs)) hc)
        · exact hmin y hy2
    · rw [hred, if_neg hc]
      have hxle : d t n₀ ≤ d t x := not_lt.mp hc
      obtain ⟨n, heq, ⟨l₁, l₂, hsplit, hl₁⟩, hmin⟩ := ih n₀
      cases l₁ with
      | nil =>
        simp only [List.nil_append, List.cons.injEq] at hsplit
        refine ⟨n, heq, ⟨[], x :: xs, ?_, by simp⟩, ?_⟩
        · rw [List.nil_append, hsplit.1]
        · intro y hy
          rcases List.mem_cons.mp hy with hy1 | hy2
          · rw [hy1]
            exact hmin n₀ (List.mem_cons_self n₀ xs)
          · rcases List.mem_cons.mp hy2 with hy3 | hy4
            · subst hy3
              calc d t n ≤ d t n₀ := hmin n₀ (List.mem_cons_self n₀ xs)
                _ ≤ d t y := hxle
            · exact hmin y (List.mem_cons.mpr (Or.inr hy4))
      | cons c l₁' =>
        rw [List.cons_append, List.cons.injEq] at hsplit
        obtain ⟨hc₀, hxs⟩ := hsplit
        refine ⟨n, heq, ⟨n₀ :: x :: l₁', l₂, ?_, ?_⟩, ?_⟩
        · rw [hxs]
          rfl
        · intro y hy
          have hn₀ : d t n < d t n₀ := by
            rw [hc₀]
            exact hl₁ c (List.mem_cons_self c l₁')
          rcases List.mem_cons.mp hy with hy1 | hy2
          · subst hy1
            exact hn₀
          · rcases List.mem_cons.mp hy2 with hy3 | hy4
            · subst hy3
              exact lt_of_lt_of_le hn₀ hxle
            · exact hl₁ y (List.mem_cons.mpr (Or.inr hy4))
        · intro y hy
          rcases List.mem_cons.mp hy with hy1 | hy2
          · rw [hy1]
            exact hmin n₀ (List.mem_cons_self n₀ xs)
          · rcases List.mem_cons.mp hy2 with hy3 | hy4
            · subst hy3
              exact le_trans (hmin n₀ (List.mem_cons_self n₀ xs)) hxle
            · exact hmin y (List.mem_cons.mpr (Or.inr hy4))

theorem findNearestNode_spec (d : Coord → Coord → ℚ) (g : Graph) (t : Coord) :
    (findNearestNode d g t = none ↔ g = []) ∧
    ∀ n, findNearestNode d g t = some n →
      (∃ l₁ l₂, nodeKeys g = l₁ ++ n :: l₂ ∧ ∀ y ∈ l₁, d t n < d t y) ∧
      ∀ y ∈ nodeKeys g, d t n ≤ d t y := by
  cases g with
  | nil =>
    refine ⟨by simp [findNearestNode, nodeKeys], ?_⟩
    intro n hn
    simp [findNearestNode, nodeKeys] at hn
  | cons e rest =>
    have hkeys : nodeKeys (e :: rest) = e.1 :: (rest.map Prod.fst) := rfl
    have hfold : findNearestNode d (e :: rest) t =
        some (nearMin d t e.1 (d t e.1) (rest.map Prod.fst)).1 := by
      unfold findNearestNode
      rw [hkeys, List.foldl_cons]
      show ((rest.map Prod.fst).foldl _
        ((some e.1, some (d t e.1)) : Option Coord × Option ℚ)).1 = _
      rw [foldl_nearMin]
    constructor
    · rw [hfold]
      simp
    · intro n hn
      rw [hfold, Option.some_inj] at hn
      obtain ⟨n', heq, ⟨l₁, l₂, hsplit, hl₁⟩, hmin⟩ :=
        nearMin_spec d t (rest.map Prod.fst) e.1
      have hnn : n = n' := by rw [← hn, heq]
      subst hnn
      rw [hkeys]
      exact ⟨⟨l₁, l₂, hsplit, hl₁⟩, hmin⟩

theorem nodeKeys_setEdge (g : Graph) (a b : Coord) (w : ℚ) :
    nodeKeys (setEdge g a b w) = nodeKeys g := by
  unfold nodeKeys setEdge
  rw [List.map_map]
  apply List.map_congr_left
  intro e _
  by_cases h : e.1 = a <;> simp [h]

theorem nodeKeys_ensureNode (g : Graph) (k : Coord) :
    nodeKeys (ensureNode g k) = nodeKeys g ∨
    nodeKeys (ensureNode g k) = nodeKeys g ++ [k] := by
  unfold ensureNode
  by_cases h : (g.lookup k).isSome
  · rw [if_pos h]
    exact Or.inl rfl
  · rw [if_neg h]
    right
    unfold nodeKeys
    rw [List.map_append]
    rfl

theorem mem_nodeKeys_addSegment (d : Coord → Coord → ℚ) (g : Graph)
    (pq : Coord × Coord) (x : Coord) (hx : x ∈ nodeKeys (addSegment d g pq)) :
    x ∈ nodeKeys g ∨ x = pq.1 ∨ x = pq.2 := by
  unfold addSegment at hx
  rw [nodeKeys_setEdge, nodeKeys_setEdge] at hx
  rcases nodeKeys_ensureNode (ensureNode g pq.1) pq.2 with h2 | h2 <;> rw [h2] at hx
  · rcases nodeKeys_ensureNode g pq.1 with h1 | h1 <;> rw [h1] at hx
    · exact Or.inl hx
    · rcases List.mem_append.mp hx with h | h
      · exact Or.inl h
      · simp only [List.mem_singleton] at h
        exact Or.inr (Or.inl h)
  · rcases List.mem_append.mp hx with h | h
    · rcases nodeKeys_ensureNode g pq.1 with h1 | h1 <;> rw [h1] at h
      · exact Or.inl h
      · rcases List.mem_append.mp h with h' | h'
        · exact Or.inl h'
        · simp only [List.mem_singleton] at h'
          exact Or.inr (Or.inl h')
    · simp only [List.mem_singleton] at h
      exact Or.inr (Or.inr h)

theorem mem_nodeKeys_foldSegments (d : Coord → Coord → ℚ) (x : Coord) :
    ∀ (pairs : List (Coord × Coord)) (g : Graph),
      x ∈ nodeKeys (pairs.foldl (addSegment d) g) →
      x ∈ nodeKeys g ∨ ∃ pq ∈ pairs, x = pq.1 ∨ x = pq.2 := by
  intro pairs
  induction pairs with
  | nil => intro g h; exact Or.inl h
  | cons pq rest ih =>
    intro g h
    rw [List.foldl_cons] at h
    rcases ih (addSegment d g pq) h with h' | ⟨r, hr, hx'⟩
    · rcases mem_nodeKeys_addSegment d g pq x h' with h'' | h'' | h''
      · exact Or.inl h''
      · exact Or.inr ⟨pq, List.mem_cons_self pq rest, Or.inl h''⟩
      · exact Or.inr ⟨pq, List.mem_cons_self pq rest, Or.inr h''⟩
    · exact Or.inr ⟨r, List.mem_cons.mpr (Or.inr hr), hx'⟩

theorem mem_nodeKeys_addFeature (d : Coord → Coord → ℚ) (g : Graph)
    (coords : List Coord) (x : Coord) (hx : x ∈ nodeKeys (addFeature d g coords)) :
    x ∈ nodeKeys g ∨ x ∈ coords := by
  unfold addFeature at hx
  rcases mem_nodeKeys_foldSegments d x _ g hx with h | ⟨pq, hpq, hor⟩
  · exact Or.inl h
  · obtain ⟨p, q⟩ := pq
    obtain ⟨h1, h2⟩ := List.of_mem_zip hpq
    rcases hor with h | h
    · exact Or.inr (h ▸ h1)
    · exact Or.inr (h ▸ List.tail_subset coords h2)

theorem mem_nodeKeys_buildAux (d : Coord → Coord → ℚ) (k : Coord) :
    ∀ (roads : List (List Coord)) (g0 : Graph),
      k ∈ nodeKeys (roads.foldl (fun g f => addFeature d g (f.map Prod.swap)) g0) →
      k ∈ nodeKeys g0 ∨ ∃ f ∈ roads, Prod.swap k ∈ f := by
  intro roads
  induction roads with
  | nil => intro g0 h; exact Or.inl h
  | cons f rest ih =>
    intro g0 h
    rw [List.foldl_cons] at h
    rcases ih (addFeature d g0 (f.map Prod.swap)) h with h' | ⟨f', hf', hkf'⟩
    · rcases mem_nodeKeys_addFeature d g0 (f.map Prod.swap) k h' with h'' | h''
      · exact Or.inl h''
      · obtain ⟨c, hc, hck⟩ := List.mem_map.mp h''
        right
        exact ⟨f, List.mem_cons_self f rest, by rw [← hck, Prod.swap_swap]; exact hc⟩
    · exact Or.inr ⟨f', List.mem_cons.mpr (Or.inr hf'), hkf'⟩

theorem mem_nodeKeys_build (d : Coord → Coord → ℚ) (roads : List (List Coord))
    (k : Coord) (hk : k ∈ nodeKeys (buildAdjacencyList d roads)) :
    ∃ f ∈ roads, Prod.swap k ∈ f := by
  unfold buildAdjacencyList at hk
  rcases mem_nodeKeys_buildAux d k roads [] hk with h | h
  · simp [nodeKeys] at h
  · exact h

/-- Comparator following the spec's words for §6: the builder run on
features whose coordinates are already in (latitude, longitude) order,
with no transposition step. -/
def buildAdjacencyListLatLng (d : Coord → Coord → ℚ) (roads : List (List Coord)) :
    Graph :=
  roads.foldl (addFeature d) []

theorem build_eq_latlng_of_swapped (d : Coord → Coord → ℚ) (roads : List (List Coord)) :
    buildAdjacencyList d roads =
      buildAdjacencyListLatLng d (roads.map (List.map Prod.swap)) := by
  unfold buildAdjacencyList buildAdjacencyListLatLng
  rw [List.foldl_map]

/-- Comparator following the spec's words for §6: the same orchestration
when the point table already stores (latitude, longitude) coordinates. -/
def handleNavigationLatLng (d : Coord → Coord → ℚ) (st : NavState) : NavState :=
  match st.startPoint, st.endPoint with
  | some sp, some ep =>
    match st.points.lookup sp, st.points.lookup ep with
    | some sc, some ec =>
      match findNearestNode d st.graph sc, findNearestNode d st.graph ec with
      | some sn, some en =>
        { st with route := storeRoute (dijkstra st.graph (some sn) (some en)) }
      | _, _ => st
    | _, _ => st
  | _, _ => st

theorem lookup_map_swap_points (pts : List (String × Coord)) (name : String) :
    (pts.map (fun p => (p.1, Prod.swap p.2))).lookup name =
      (pts.lookup name).map Prod.swap := by
  induction pts with
  | nil => rfl
  | cons p rest ih =>
    obtain ⟨nm, c⟩ := p
    simp only [List.map_cons]
    rw [lookup_cons_pair, lookup_cons_pair]
    by_cases h : name = nm
    · simp [h]
    · rw [if_neg h, if_neg h, ih]

theorem handleNavigation_eq_latlng (d : Coord → Coord → ℚ) (st : NavState) :
    handleNavigation d st =
      { handleNavigationLatLng d
          { st with points := st.points.map (fun p => (p.1, Prod.swap p.2)) } with
        points := st.points } := by
  obtain ⟨sp?, ep?, pts, gr, rt⟩ := st
  unfold handleNavigation handleNavigationLatLng
  cases sp? with
  | none => cases ep? <;> rfl
  | some sp =>
    cases ep? with
    | none => rfl
    | some ep =>
      simp only [lookup_map_swap_points]
      cases hsc : pts.lookup sp with
      | none => rfl
      | some sc =>
        cases hec : pts.lookup ep with
        | none => rfl
        | some ec =>
          simp only [Option.map_some, Option.map_some']
          cases hsn : findNearestNode d gr (Prod.swap sc) with
          | none => rfl
          | some sn =>
            cases hen : findNearestNode d gr (Prod.swap ec) with
            | none => rfl
            | some en => rfl

theorem handleNavigation_frame (d : Coord → Coord → ℚ) (st : NavState) :
    ((st.startPoint = none ∨ st.endPoint = none) → handleNavigation d st = st) ∧
    (∀ sp ep, st.startPoint = some sp → st.endPoint = some ep →
      (st.points.lookup sp = none ∨ st.points.lookup ep = none) →
      handleNavigation d st = st) ∧
    (∀ sp ep sc ec, st.startPoint = some sp → st.endPoint = some ep →
      st.points.lookup sp = some sc → st.points.lookup ep = some ec →
      (findNearestNode d st.graph (Prod.swap sc) = none ∨
       findNearestNode d st.graph (Prod.swap ec) = none) →
      handleNavigation d st = st) ∧
    (∀ sp ep sc ec sn en, st.startPoint = some sp → st.endPoint = some ep →
      st.points.lookup sp = some sc → st.points.lookup ep = some ec →
      findNearestNode d st.graph (Prod.swap sc) = some sn →
      findNearestNode d st.graph (Prod.swap ec) = some en →
      ((dijkstra st.graph (some sn) (some en) = none ∨
        (∃ p, dijkstra st.graph (some sn) (some en) = some p ∧ p.length < 2)) →
        handleNavigation d st = { st with route := none }) ∧
      (∀ p, dijkstra st.graph (some sn) (some en) = some p → 2 ≤ p.length →
        handleNavigation d st = { st with route := some p })) := by
  refine ⟨?_, ?_, ?_, ?_⟩
  · intro h
    unfold handleNavigation
    rcases h with h | h
    · rw [h]
    · rw [h]
      cases st.startPoint <;> rfl
  · intro sp ep hsp hep h
    unfold handleNavigation
    simp only [hsp, hep]
    cases hsc : st.points.lookup sp with
    | none => cases st.points.lookup ep <;> rfl
    | some sc =>
      cases hec : st.points.lookup ep with
      | none => rfl
      | some ec =>
        rcases h with h | h
        · rw [h] at hsc
          cases hsc
        · rw [h] at hec
          cases hec
  · intro sp ep sc ec hsp hep hsc hec h
    unfold handleNavigation
    simp only [hsp, hep, hsc, hec]
    cases hsn : findNearestNode d st.graph (Prod.swap sc) with
    | none => cases findNearestNode d st.graph (Prod.swap ec) <;> rfl
    | some sn =>
      cases hen : findNearestNode d st.graph (Prod.swap ec) with
      | none => rfl
      | some en =>
        rcases h with h | h
        · rw [h] at hsn
          cases hsn
        · rw [h] at hen
          cases hen
  · intro sp ep sc ec sn en hsp hep hsc hec hsn hen
    constructor
    · intro h
      unfold handleNavigation
      simp only [hsp, hep, hsc, hec, hsn, hen]
      rcases h with h | ⟨p, hp, hlen⟩
      · rw [h]
        rfl
      · rw [hp]
        simp only [storeRoute]
        rw [if_pos hlen]
    · intro p hp hlen
      unfold handleNavigation
      simp only [hsp, hep, hsc, hec, hsn, hen, hp]
      simp only [storeRoute]
      rw [if_neg (Nat.not_lt.mpr hlen)]

/-- C3: for every sequence of road features, the built graph is
symmetric: whenever `a`'s adjacency contains `b` with weight `w`, `b`'s
adjacency contains `a` with the same weight `w`. -/
theorem C3_build_symmetric (d : Coord → Coord → ℚ) (roads : List (List Coord))
    (a b : Coord) (w : ℚ)
    (hab : edgeW (buildAdjacencyList d roads) a b = some w) :
    edgeW (buildAdjacencyList d roads) b a = some w :=
  symmG_build d roads a b w hab

theorem C3_build_symmetric_witness :
    edgeW (buildAdjacencyList distL1 [[((0:ℚ), (0:ℚ)), ((0:ℚ), (1:ℚ))]])
        ((0:ℚ), (0:ℚ)) ((1:ℚ), (0:ℚ)) = some 1 ∧
    edgeW (buildAdjacencyList distL1 [[((0:ℚ), (0:ℚ)), ((0:ℚ), (1:ℚ))]])
        ((1:ℚ), (0:ℚ)) ((0:ℚ), (0:ℚ)) = some 1 :=
  ⟨by with_unfolding_all decide,
   C3_build_symmetric distL1 [[((0:ℚ), (0:ℚ)), ((0:ℚ), (1:ℚ))]]
     ((0:ℚ), (0:ℚ)) ((1:ℚ), (0:ℚ)) 1 (by with_unfolding_all decide)⟩

/-- C4 counterexample: a road feature with a repeated consecutive
coordinate does create a self-loop (of weight 0) in the built graph,
contradicting the claim that no self-loop is ever created. -/
theorem C4_selfloop_counterexample :
    edgeW (buildAdjacencyList distL1 [[((0:ℚ), (0:ℚ)), ((0:ℚ), (0:ℚ))]])
      ((0:ℚ), (0:ℚ)) ((0:ℚ), (0:ℚ)) = some 0 := by with_unfolding_all decide

/-- C4 (amended): for road features in which no two consecutive
coordinates are equal, the built graph contains no self-loop. -/
theorem C4_no_selfloop_amended (d : Coord → Coord → ℚ) (roads : List (List Coord))
    (h : ∀ f ∈ roads, ∀ pq ∈ f.zip f.tail, pq.1 ≠ pq.2) (x : Coord) :
    edgeW (buildAdjacencyList d roads) x x = none :=
  noSelfLoop_build d roads h x

theorem C4_no_selfloop_amended_witness :
    edgeW (buildAdjacencyList distL1 [[((0:ℚ), (0:ℚ)), ((0:ℚ), (1:ℚ))]])
      ((0:ℚ), (0:ℚ)) ((0:ℚ), (0:ℚ)) = none :=
  C4_no_selfloop_amended distL1 [[((0:ℚ), (0:ℚ)), ((0:ℚ), (1:ℚ))]]
    (by with_unfolding_all decide) ((0:ℚ), (0:ℚ))

/-- C5: the nearest-node resolver returns `none` exactly on the empty
graph; otherwise it returns the first node (in iteration order over the
node set) attaining the minimal distance to the target. -/
theorem C5_findNearestNode_spec (d : Coord → Coord → ℚ) (g : Graph) (t : Coord) :
    (findNearestNode d g t = none ↔ g = []) ∧
    ∀ n, findNearestNode d g t = some n →
      (∃ l₁ l₂, nodeKeys g = l₁ ++ n :: l₂ ∧ ∀ y ∈ l₁, d t n < d t y) ∧
      ∀ y ∈ nodeKeys g, d t n ≤ d t y :=
  findNearestNode_spec d g t

theorem C5_findNearestNode_spec_witness :
    (∃ l₁ l₂, nodeKeys (buildAdjacencyList distL1 [[((0:ℚ), (0:ℚ)), ((0:ℚ), (1:ℚ))]]) =
        l₁ ++ ((1:ℚ), (0:ℚ)) :: l₂ ∧
        ∀ y ∈ l₁, distL1 ((2:ℚ), (0:ℚ)) ((1:ℚ), (0:ℚ)) < distL1 ((2:ℚ), (0:ℚ)) y) ∧
    ∀ y ∈ nodeKeys (buildAdjacencyList distL1 [[((0:ℚ), (0:ℚ)), ((0:ℚ), (1:ℚ))]]),
      distL1 ((2:ℚ), (0:ℚ)) ((1:ℚ), (0:ℚ)) ≤ distL1 ((2:ℚ), (0:ℚ)) y :=
  (C5_findNearestNode_spec distL1
    (buildAdjacencyList distL1 [[((0:ℚ), (0:ℚ)), ((0:ℚ), (1:ℚ))]])
    ((2:ℚ), (0:ℚ))).2 ((1:ℚ), (0:ℚ)) (by with_unfolding_all decide)

/-- C6: when `start` is a graph node, querying `start == start` returns
the single-node path `[start]` (not the null-path result), and the
orchestration's length-< 2 check classifies it as no meaningful route
(the stored route becomes null). -/
theorem C6_identity_path (g : Graph) (s : Coord) (hs : s ∈ nodeKeys g) :
    dijkstra g (some s) (some s) = some [s] ∧ storeRoute (some [s]) = none :=
  ⟨dijkstra_self g s hs, rfl⟩

theorem C6_identity_path_witness :
    dijkstra (buildAdjacencyList distL1 [[((0:ℚ), (0:ℚ)), ((0:ℚ), (1:ℚ))]])
        (some ((0:ℚ), (0:ℚ))) (some ((0:ℚ), (0:ℚ))) = some [((0:ℚ), (0:ℚ))] ∧
    storeRoute (some [((0:ℚ), (0:ℚ))]) = none :=
  C6_identity_path (buildAdjacencyList distL1 [[((0:ℚ), (0:ℚ)), ((0:ℚ), (1:ℚ))]])
    ((0:ℚ), (0:ℚ)) (by with_unfolding_all decide)

/-- C7: re-inserting a segment between the same endpoints overwrites the
stored weight with the latest computed distance (both directions,
last-write-wins, no accumulation), and building from the two reversed
duplicate features yields exactly two nodes joined by one bidirectional
edge whose weight is the (last) computed segment distance. -/
theorem C7_last_write_wins (d : Coord → Coord → ℚ) :
    (∀ (g : Graph) (p q : Coord),
      edgeW (addSegment d g (p, q)) p q = some (d p q) ∧
      edgeW (addSegment d g (p, q)) q p = some (d p q)) ∧
    buildAdjacencyList d [[((0:ℚ), (0:ℚ)), ((0:ℚ), (1:ℚ))],
        [((0:ℚ), (1:ℚ)), ((0:ℚ), (0:ℚ))]] =
      [(((0:ℚ), (0:ℚ)), [(((1:ℚ), (0:ℚ)), d ((1:ℚ), (0:ℚ)) ((0:ℚ), (0:ℚ)))]),
       (((1:ℚ), (0:ℚ)), [(((0:ℚ), (0:ℚ)), d ((1:ℚ), (0:ℚ)) ((0:ℚ), (0:ℚ)))])] :=
  ⟨fun g p q => edgeW_addSegment_latest d g p q, rfl⟩

/-- C8: the builder transposes every (longitude, latitude) source
coordinate to (latitude, longitude) before keying the graph or computing
distances — building equals the no-transposition builder run on
pre-swapped features, every node key is the transpose of a source
coordinate, and the orchestration layer feeds transposed point
coordinates to the nearest-node resolver. -/
theorem C8_transposition (d : Coord → Coord → ℚ) :
    (∀ roads : List (List Coord),
      buildAdjacencyList d roads =
        buildAdjacencyListLatLng d (roads.map (List.map Prod.swap))) ∧
    (∀ (roads : List (List Coord)) (k : Coord),
      k ∈ nodeKeys (buildAdjacencyList d roads) → ∃ f ∈ roads, Prod.swap k ∈ f) ∧
    ∀ st : NavState,
      handleNavigation d st =
        { handleNavigationLatLng d
            { st with points := st.points.map (fun p => (p.1, Prod.swap p.2)) } with
          points := st.points } :=
  ⟨fun roads => build_eq_latlng_of_swapped d roads,
   fun roads k hk => mem_nodeKeys_build d roads k hk,
   fun st => handleNavigation_eq_latlng d st⟩

/-- C9: the orchestration layer leaves the stored route untouched when
the selection is incomplete, a name resolves to no geometry, or
nearest-node resolution fails; it resets the route to null on a null or
length-< 2 path; and it stores exactly the paths of length ≥ 2. -/
theorem C9_handleNavigation_frame (d : Coord → Coord → ℚ) (st : NavState) :
    ((st.startPoint = none ∨ st.endPoint = none) → handleNavigation d st = st) ∧
    (∀ sp ep, st.startPoint = some sp → st.endPoint = some ep →
      (st.points.lookup sp = none ∨ st.points.lookup ep = none) →
      handleNavigation d st = st) ∧
    (∀ sp ep sc ec, st.startPoint = some sp → st.endPoint = some ep →
      st.points.lookup sp = some sc → st.points.lookup ep = some ec →
      (findNearestNode d st.graph (Prod.swap sc) = none ∨
       findNearestNode d st.graph (Prod.swap ec) = none) →
      handleNavigation d st = st) ∧
    (∀ sp ep sc ec sn en, st.startPoint = some sp → st.endPoint = some ep →
      st.points.lookup sp = some sc → st.points.lookup ep = some ec →
      findNearestNode d st.graph (Prod.swap sc) = some sn →
      findNearestNode d st.graph (Prod.swap ec) = some en →
      ((dijkstra st.graph (some sn) (some en) = none ∨
        (∃ p, dijkstra st.graph (some sn) (some en) = some p ∧ p.length < 2)) →
        handleNavigation d st = { st with route := none }) ∧
      (∀ p, dijkstra st.graph (some sn) (some en) = some p → 2 ≤ p.length →
        handleNavigation d st = { st with route := some p })) :=
  handleNavigation_frame d st

/-- C10: the engine's main loop terminates in at most as many iterations
as there are unvisited nodes — running it with that much fuel computes
the same final state as the unbounded loop. -/
theorem C10_loop_iteration_bound (g : Graph) (endK : Coord) (n : Nat)
    (U : List Coord) (dp : DistM × PrevM) (h : U.length ≤ n) :
    dijkstraLoopFuel g endK n U dp = dijkstraLoop g endK U dp :=
  dijkstraLoopFuel_eq g endK n U dp h

theorem C10_loop_iteration_bound_witness :
    dijkstraLoopFuel (buildAdjacencyList distL1 [[((0:ℚ), (0:ℚ)), ((0:ℚ), (1:ℚ))]])
        ((1:ℚ), (0:ℚ))
        (nodeKeys (buildAdjacencyList distL1 [[((0:ℚ), (0:ℚ)), ((0:ℚ), (1:ℚ))]])).length
        (nodeKeys (buildAdjacencyList distL1 [[((0:ℚ), (0:ℚ)), ((0:ℚ), (1:ℚ))]]))
        (initDist (buildAdjacencyList distL1 [[((0:ℚ), (0:ℚ)), ((0:ℚ), (1:ℚ))]])
          ((0:ℚ), (0:ℚ)), fun _ => none) =
      dijkstraLoop (buildAdjacencyList distL1 [[((0:ℚ), (0:ℚ)), ((0:ℚ), (1:ℚ))]])
        ((1:ℚ), (0:ℚ))
        (nodeKeys (buildAdjacencyList distL1 [[((0:ℚ), (0:ℚ)), ((0:ℚ), (1:ℚ))]]))
        (initDist (buildAdjacencyList distL1 [[((0:ℚ), (0:ℚ)), ((0:ℚ), (1:ℚ))]])
          ((0:ℚ), (0:ℚ)), fun _ => none) :=
  C10_loop_iteration_bound _ _ _ _ _ (Nat.le_refl _)

theorem C8_transposition_witness :
    ∃ f ∈ [[((0:ℚ), (0:ℚ)), ((0:ℚ), (1:ℚ))]], Prod.swap ((1:ℚ), (0:ℚ)) ∈ f :=
  (C8_transposition distL1).2.1 [[((0:ℚ), (0:ℚ)), ((0:ℚ), (1:ℚ))]] ((1:ℚ), (0:ℚ))
    (by with_unfolding_all decide)

theorem C9_handleNavigation_frame_witness :
    handleNavigation distL1
      { startPoint := some "A", endPoint := some "B",
        points := [("A", ((0:ℚ), (0:ℚ))), ("B", ((0:ℚ), (1:ℚ)))],
        graph := buildAdjacencyList distL1 [[((0:ℚ), (0:ℚ)), ((0:ℚ), (1:ℚ))]],
        route := none } =
      { startPoint := some "A", endPoint := some "B",
        points := [("A", ((0:ℚ), (0:ℚ))), ("B", ((0:ℚ), (1:ℚ)))],
        graph := buildAdjacencyList distL1 [[((0:ℚ), (0:ℚ)), ((0:ℚ), (1:ℚ))]],
        route := some [((0:ℚ), (0:ℚ)), ((1:ℚ), (0:ℚ))] } :=
  ((C9_handleNavigation_frame distL1
      { startPoint := some "A", endPoint := some "B",
        points := [("A", ((0:ℚ), (0:ℚ))), ("B", ((0:ℚ), (1:ℚ)))],
        graph := buildAdjacencyList distL1 [[((0:ℚ), (0:ℚ)), ((0:ℚ), (1:ℚ))]],
        route := none }).2.2.2 "A" "B" ((0:ℚ), (0:ℚ)) ((0:ℚ), (1:ℚ))
      ((0:ℚ), (0:ℚ)) ((1:ℚ), (0:ℚ)) rfl rfl (by with_unfolding_all decide)
      (by with_unfolding_all decide) (by with_unfolding_all decide)
      (by with_unfolding_all decide)).2
    [((0:ℚ), (0:ℚ)), ((1:ℚ), (0:ℚ))] (by with_unfolding_all decide)
    (by with_unfolding_all decide)

/-! ## Walk lemmas -/

theorem walkW_append_last (g : Graph) :
    ∀ (p : List Coord) (c n : Coord) (q w : ℚ), p.getLast? = some c →
      walkW g p = some q → edgeW g c n = some w →
      walkW g (p ++ [n]) = some (q + w) := by
  intro p
  induction p with
  | nil => intro c n q w h; cases h
  | cons a rest ih =>
    intro c n q w hlast hw he
    cases rest with
    | nil =>
      simp only [List.getLast?_singleton, Option.some_inj] at hlast
      simp only [walkW, Option.some_inj] at hw
      subst hw
      rw [← hlast] at he
      show walkW g (a :: n :: []) = some (0 + w)
      simp [walkW, he, zero_add]
    | cons b rest' =>
      have hlast' : (b :: rest').getLast? = some c := by
        rw [List.getLast?_cons_cons] at hlast
        exact hlast
      simp only [walkW] at hw
      cases hab : edgeW g a b with
      | none => rw [hab] at hw; cases hw
      | some w₀ =>
        rw [hab] at hw
        simp only [Option.some_bind, Option.bind_some] at hw
        cases hq' : walkW g (b :: rest') with
        | none => rw [hq'] at hw; cases hw
        | some q' =>
          rw [hq'] at hw
          simp only [Option.map_some, Option.map_some', Option.some_inj] at hw
          have hrec := ih c n q' w hlast' hq' he
          simp only [List.cons_append] at hrec ⊢
          show walkW g (a :: b :: (rest' ++ [n])) = some (q + w)
          simp only [walkW]
          have hbr : walkW g (b :: (rest' ++ [n])) = some (q' + w) := hrec
          rw [hab, hbr]
          simp only [Option.some_bind, Option.bind_some, Option.map_some,
            Option.map_some', Option.some_inj]
          rw [← hw]
          ring

theorem mem_nodeKeys_iff_lookup (g : Graph) (x : Coord) :
    x ∈ nodeKeys g ↔ (g.lookup x).isSome := by
  induction g with
  | nil => simp [nodeKeys, List.lookup]
  | cons e g ih =>
    obtain ⟨a, adj⟩ := e
    rw [show nodeKeys ((a, adj) :: g) = a :: nodeKeys g from rfl, lookup_cons_pair]
    by_cases h : x = a
    · simp [h]
    · simp only [List.mem_cons, h, false_or, if_neg h]
      exact ih

theorem lookup_mem {α β : Type} [BEq α] [LawfulBEq α] [DecidableEq α]
    (l : List (α × β)) (k : α) (v : β) (h : l.lookup k = some v) : (k, v) ∈ l := by
  induction l with
  | nil => cases h
  | cons e l ih =>
    obtain ⟨a, b⟩ := e
    rw [lookup_cons_pair] at h
    by_cases hk : k = a
    · rw [if_pos hk, Option.some_inj] at h
      subst hk
      subst h
      exact List.mem_cons_self _ _
    · rw [if_neg hk] at h
      exact List.mem_cons.mpr (Or.inr (ih h))

theorem lookup_eq_of_mem_nodup {α β : Type} [BEq α] [LawfulBEq α] [DecidableEq α]
    (l : List (α × β)) (hnd : (l.map Prod.fst).Nodup) (k : α) (v : β)
    (h : (k, v) ∈ l) : l.lookup k = some v := by
  induction l with
  | nil => cases h
  | cons e l ih =>
    obtain ⟨a, b⟩ := e
    rw [List.map_cons, List.nodup_cons] at hnd
    rw [lookup_cons_pair]
    rcases List.mem_cons.mp h with h1 | h2
    · rw [Prod.mk.injEq] at h1
      rw [if_pos h1.1, h1.2]
    · have hka : k ≠ a := by
        intro hk
        subst hk
        exact hnd.1 (List.mem_map.mpr ⟨(k, v), h2, rfl⟩)
      rw [if_neg hka]
      exact ih hnd.2 h2

theorem walkW_chain (g : Graph) :
    ∀ p : List Coord, (walkW g p).isSome →
      p.Chain' (fun a b => (edgeW g a b).isSome) := by
  intro p
  induction p with
  | nil => intro _; exact List.chain'_nil
  | cons a rest ih =>
    intro h
    cases rest with
    | nil => simp
    | cons b rest' =>
      rw [List.chain'_cons]
      simp only [walkW] at h
      cases hab : edgeW g a b with
      | none => rw [hab] at h; cases h
      | some w =>
        refine ⟨rfl, ih ?_⟩
        rw [hab] at h
        simp only [Option.some_bind, Option.bind_some] at h
        cases hr : walkW g (b :: rest') with
        | none => rw [hr] at h; cases h
        | some q => rfl

theorem relax_spec (current : Coord) :
    ∀ (adj : Adj) (D : DistM) (P : PrevM) (qc : ℚ),
      D current = some ((qc : ℚ) : WithTop ℚ) →
      (adj.map Prod.fst).Nodup →
      (∀ bw ∈ adj, 0 ≤ bw.2) →
      ((relax adj current (D, P)).1 current = some ((qc : ℚ) : WithTop ℚ) ∧
       (relax adj current (D, P)).2 current = P current) ∧
      ∀ x : Coord,
        (((relax adj current (D, P)).1 x = D x ∧
          (relax adj current (D, P)).2 x = P x) ∧
          ∀ w : ℚ, (x, w) ∈ adj →
            jsLt (some (((qc + w : ℚ)) : WithTop ℚ)) (D x) = false) ∨
        (∃ w : ℚ, (x, w) ∈ adj ∧
          jsLt (some (((qc + w : ℚ)) : WithTop ℚ)) (D x) = true ∧
          (relax adj current (D, P)).1 x = some (((qc + w : ℚ)) : WithTop ℚ) ∧
          (relax adj current (D, P)).2 x = some current) := by
  intro adj
  induction adj with
  | nil =>
    intro D P qc hcur _ _
    exact ⟨⟨hcur, rfl⟩, fun x => Or.inl ⟨⟨rfl, rfl⟩, fun w hw => absurd hw (by simp)⟩⟩
  | cons e rest ih =>
    obtain ⟨b, w₀⟩ := e
    intro D P qc hcur hnd hnn
    have halt : jsAdd (D current) w₀ = some (((qc + w₀ : ℚ)) : WithTop ℚ) := by
      rw [hcur]
      show some ((qc : WithTop ℚ) + (w₀ : WithTop ℚ)) = _
      rw [← WithTop.coe_add]
    have hstep : relax ((b, w₀) :: rest) current (D, P) =
        relax rest current
          (if jsLt (jsAdd (D current) w₀) (D b) then
            ((fun x => if x = b then jsAdd (D current) w₀ else D x,
              fun x => if x = b then some current else P x) : DistM × PrevM)
           else (D, P)) := rfl
    rw [List.map_cons, List.nodup_cons] at hnd
    have hw₀nn : 0 ≤ w₀ := hnn (b, w₀) (List.mem_cons_self _ _)
    have hrestnn : ∀ bw ∈ rest, 0 ≤ bw.2 :=
      fun bw hbw => hnn bw (List.mem_cons.mpr (Or.inr hbw))
    by_cases hb : jsLt (jsAdd (D current) w₀) (D b) = true
    · rw [hstep, if_pos hb]
      rw [halt] at hb
      have hbc : b ≠ current := by
        intro hbceq
        subst hbceq
        rw [hcur] at hb
        simp only [jsLt, decide_eq_true_eq] at hb
        have hlt : (qc : ℚ) + w₀ < qc := by exact_mod_cast hb
        linarith
      have hcb : ¬ current = b := fun h => hbc h.symm
      have hupd : ((fun x => if x = b then jsAdd (D current) w₀ else D x,
          fun x => if x = b then some current else P x) : DistM × PrevM) =
          ((fun x => if x = b then some (((qc + w₀ : ℚ)) : WithTop ℚ) else D x,
            fun x => if x = b then some current else P x) : DistM × PrevM) := by
        rw [halt]
      rw [hupd]
      set D₁ : DistM :=
        fun x => if x = b then some (((qc + w₀ : ℚ)) : WithTop ℚ) else D x with hD₁
      set P₁ : PrevM := fun x => if x = b then some current else P x with hP₁
      have hcur₁ : D₁ current = some ((qc : ℚ) : WithTop ℚ) := by
        rw [hD₁]
        simp only [if_neg hcb]
        exact hcur
      obtain ⟨⟨hfix1, hfix2⟩, hpt⟩ := ih D₁ P₁ qc hcur₁ hnd.2 hrestnn
      refine ⟨⟨hfix1, by rw [hfix2, hP₁]; simp only [if_neg hcb]⟩, ?_⟩
      intro x
      rcases hpt x with ⟨⟨hu1, hu2⟩, hni⟩ | ⟨w', hw', hlt', hup1, hup2⟩
      · by_cases hxb : x = b
        · subst hxb
          right
          refine ⟨w₀, List.mem_cons_self _ _, hb, ?_, ?_⟩
          · rw [hu1, hD₁]
            simp
          · rw [hu2, hP₁]
            simp
        · left
          have hD₁x : D₁ x = D x := by
            rw [hD₁]
            simp only [if_neg hxb]
          refine ⟨⟨by rw [hu1, hD₁x], by rw [hu2, hP₁]; simp only [if_neg hxb]⟩, ?_⟩
          intro w hw
          rcases List.mem_cons.mp hw with h1 | h2
          · rw [Prod.mk.injEq] at h1
            exact absurd h1.1 hxb
          · have hrest := hni w h2
            rw [hD₁x] at hrest
            exact hrest
      · have hxb : x ≠ b := by
          intro hxbeq
          subst hxbeq
          exact hnd.1 (List.mem_map.mpr ⟨(x, w'), hw', rfl⟩)
        have hD₁x : D₁ x = D x := by
          rw [hD₁]
          simp only [if_neg hxb]
        right
        refine ⟨w', List.mem_cons.mpr (Or.inr hw'), ?_, hup1, hup2⟩
        rw [hD₁x] at hlt'
        exact hlt'
    · rw [hstep, if_neg hb]
      obtain ⟨⟨hfix1, hfix2⟩, hpt⟩ := ih D P qc hcur hnd.2 hrestnn
      refine ⟨⟨hfix1, hfix2⟩, ?_⟩
      intro x
      rcases hpt x with ⟨⟨hu1, hu2⟩, hni⟩ | ⟨w', hw', hlt', hup1, hup2⟩
      · left
        refine ⟨⟨hu1, hu2⟩, ?_⟩
        intro w hw
        rcases List.mem_cons.mp hw with h1 | h2
        · rw [Prod.mk.injEq] at h1
          rw [halt] at hb
          rw [h1.1, h1.2]
          exact Bool.not_eq_true _ ▸ (by simpa using hb)
        · exact hni w h2
      · right
        exact ⟨w', List.mem_cons.mpr (Or.inr hw'), hlt', hup1, hup2⟩

/-- Position of the first occurrence of `x` in `l` (the visiting order
rank of a visited node). -/
def rankIn : List Coord → Coord → Nat
  | [], _ => 0
  | a :: l, x => if x = a then 0 else rankIn l x + 1

theorem rankIn_append_of_mem (x : Coord) :
    ∀ (l₁ l₂ : List Coord), x ∈ l₁ → rankIn (l₁ ++ l₂) x = rankIn l₁ x := by
  intro l₁
  induction l₁ with
  | nil => intro l₂ h; cases h
  | cons a l ih =>
    intro l₂ h
    show (if x = a then 0 else rankIn (l ++ l₂) x + 1) =
      (if x = a then 0 else rankIn l x + 1)
    by_cases hxa : x = a
    · rw [if_pos hxa, if_pos hxa]
    · rw [if_neg hxa, if_neg hxa,
        ih l₂ ((List.mem_cons.mp h).resolve_left hxa)]
  
theorem rankIn_concat_self (x : Coord) :
    ∀ l : List Coord, x ∉ l → rankIn (l ++ [x]) x = l.length := by
  intro l
  induction l with
  | nil => intro _; simp [rankIn]
  | cons a l ih =>
    intro h
    have hxa : x ≠ a := fun hc => h (hc ▸ List.mem_cons_self a l)
    show (if x = a then 0 else rankIn (l ++ [x]) x + 1) = l.length + 1
    rw [if_neg hxa, ih (fun hc => h (List.mem_cons.mpr (Or.inr hc)))]

theorem rankIn_lt_length (x : Coord) :
    ∀ l : List Coord, x ∈ l → rankIn l x < l.length := by
  intro l
  induction l with
  | nil => intro h; cases h
  | cons a l ih =>
    intro h
    show (if x = a then 0 else rankIn l x + 1) < l.length + 1
    by_cases hxa : x = a
    · rw [if_pos hxa]
      omega
    · rw [if_neg hxa]
      have := ih ((List.mem_cons.mp h).resolve_left hxa)
      omega

/-- The loop invariant of `dijkstra`'s main loop.  `U` is the unvisited
set, `vs` the visited nodes in visiting order. -/
structure DijkInv (g : Graph) (s : Coord) (U : List Coord) (D : DistM)
    (P : PrevM) (vs : List Coord) : Prop where
  hUsub : U ⊆ nodeKeys g
  hUnd : U.Nodup
  hvsnd : vs.Nodup
  hvsU : ∀ x, x ∈ vs ↔ (x ∈ nodeKeys g ∧ x ∉ U)
  hDsome : ∀ x, (D x).isSome ↔ (x ∈ nodeKeys g ∨ x = s)
  hDs : D s = some ((0 : ℚ) : WithTop ℚ)
  hPs : P s = none
  hDnn : ∀ x (q : ℚ), D x = some ((q : ℚ) : WithTop ℚ) → 0 ≤ q
  hWit : ∀ x (q : ℚ), D x = some ((q : ℚ) : WithTop ℚ) →
    ∃ p : List Coord, p.head? = some s ∧ p.getLast? = some x ∧ walkW g p = some q
  hPfin : ∀ x (q : ℚ), D x = some ((q : ℚ) : WithTop ℚ) → x ≠ s → ∃ c, P x = some c
  hPrev : ∀ x c, P x = some c → ∃ (qc w : ℚ), D c = some ((qc : ℚ) : WithTop ℚ) ∧
    edgeW g c x = some w ∧ D x = some (((qc + w : ℚ)) : WithTop ℚ) ∧ c ∈ vs ∧
    (x ∈ vs → rankIn vs c < rankIn vs x)
  hRel : ∀ v ∈ vs, ∀ adj, g.lookup v = some adj → ∀ bw ∈ adj,
    jsLt (jsAdd (D v) bw.2) (D bw.1) = false
  hMono : ∀ v ∈ vs, ∀ (qv : ℚ), D v = some ((qv : ℚ) : WithTop ℚ) →
    ∀ u ∈ U, ∀ du, D u = some du → ((qv : ℚ) : WithTop ℚ) ≤ du
  hVisFin : ∀ v ∈ vs, ∃ qv : ℚ, D v = some ((qv : ℚ) : WithTop ℚ)

theorem dijkInv_init (g : Graph) (s : Coord) (hWF : WFgraph g) :
    DijkInv g s (nodeKeys g) (initDist g s) (fun _ => none) [] := by
  refine ⟨fun x hx => hx, hWF.1, List.nodup_nil, ?_, ?_, ?_, rfl, ?_, ?_, ?_, ?_, ?_, ?_, ?_⟩
  · intro x
    simp
  · intro x
    unfold initDist
    by_cases hxs : x = s
    · simp [hxs]
    · by_cases hxk : x ∈ nodeKeys g
      · simp [hxs, hxk]
      · simp [hxs, hxk]
  · unfold initDist
    simp
  · intro x q hx
    unfold initDist at hx
    by_cases hxs : x = s
    · rw [if_pos hxs, Option.some_inj] at hx
      have : (q : ℚ) = 0 := by exact_mod_cast hx.symm
      rw [this]
    · rw [if_neg hxs] at hx
      by_cases hxk : x ∈ nodeKeys g
      · rw [if_pos hxk, Option.some_inj] at hx
        exact absurd hx.symm (WithTop.coe_ne_top)
      · rw [if_neg hxk] at hx
        cases hx
  · intro x q hx
    unfold initDist at hx
    by_cases hxs : x = s
    · rw [if_pos hxs, Option.some_inj] at hx
      have hq : (q : ℚ) = 0 := by exact_mod_cast hx.symm
      subst hxs
      exact ⟨[x], rfl, rfl, by rw [hq]; rfl⟩
    · rw [if_neg hxs] at hx
      by_cases hxk : x ∈ nodeKeys g
      · rw [if_pos hxk, Option.some_inj] at hx
        exact absurd hx.symm (WithTop.coe_ne_top)
      · rw [if_neg hxk] at hx
        cases hx
  · intro x q hx hxs
    unfold initDist at hx
    rw [if_neg hxs] at hx
    by_cases hxk : x ∈ nodeKeys g
    · rw [if_pos hxk, Option.some_inj] at hx
      exact absurd hx.symm (WithTop.coe_ne_top)
    · rw [if_neg hxk] at hx
      cases hx
  · intro x c hx
    cases hx
  · intro v hv
    cases hv
  · intro v hv
    cases hv
  · intro v hv
    cases hv

theorem isSome_not_top (o : Option (WithTop ℚ)) (h1 : o.isSome) (h2 : o ≠ some ⊤) :
    ∃ q : ℚ, o = some ((q : ℚ) : WithTop ℚ) := by
  cases o with
  | none => cases h1
  | some v =>
    induction v using WithTop.recTopCoe with
    | top => exact absurd rfl h2
    | coe q => exact ⟨q, rfl⟩

theorem jsLt_coe_false_iff (a : ℚ) (o : Option (WithTop ℚ)) (b : WithTop ℚ)
    (ho : o = some b) :
    jsLt (some ((a : ℚ) : WithTop ℚ)) o = false ↔ b ≤ ((a : ℚ) : WithTop ℚ) := by
  subst ho
  simp [jsLt, not_lt]

theorem mem_unique_of_nodup (l : Adj) (hnd : (l.map Prod.fst).Nodup) (k : Coord)
    (v₁ v₂ : ℚ) (h₁ : (k, v₁) ∈ l) (h₂ : (k, v₂) ∈ l) : v₁ = v₂ := by
  have e₁ := lookup_eq_of_mem_nodup l hnd k v₁ h₁
  have e₂ := lookup_eq_of_mem_nodup l hnd k v₂ h₂
  rw [e₁] at e₂
  exact Option.some_inj.mp e₂

theorem dijkInv_step (g : Graph) (s : Coord) (hWF : WFgraph g) (hnn : NonnegW g)
    (U : List Coord) (D : DistM) (P : PrevM) (vs : List Coord)
    (hinv : DijkInv g s U D P vs) (c : Coord) (hcU : c ∈ U)
    (hargmin : ∀ x ∈ U, jsLt (D x) (D c) = false)
    (hg1 : D c ≠ some (⊤ : WithTop ℚ))
    (adj : Adj) (hadj : g.lookup c = some adj) :
    DijkInv g s (U.erase c) (relax adj c (D, P)).1 (relax adj c (D, P)).2
      (vs ++ [c]) := by
  have hck : c ∈ nodeKeys g := hinv.hUsub hcU
  obtain ⟨qc, hqc⟩ := isSome_not_top (D c) ((hinv.hDsome c).mpr (Or.inl hck)) hg1
  have hqcnn : 0 ≤ qc := hinv.hDnn c qc hqc
  have hcnvs : c ∉ vs := fun h => ((hinv.hvsU c).mp h).2 hcU
  have hcg : (c, adj) ∈ g := lookup_mem g c adj hadj
  have hadjnd : (adj.map Prod.fst).Nodup := hWF.2 (c, adj) hcg
  have hadjnn : ∀ bw ∈ adj, 0 ≤ bw.2 := fun bw hbw => hnn (c, adj) hcg bw hbw
  obtain ⟨⟨hfixD, hfixP⟩, hpt⟩ := relax_spec c adj D P qc hqc hadjnd hadjnn
  set D' : DistM := (relax adj c (D, P)).1 with hD'
  set P' : PrevM := (relax adj c (D, P)).2 with hP'
  -- edge weights out of c are observable through edgeW
  have hedgec : ∀ x w, (x, w) ∈ adj → edgeW g c x = some w := by
    intro x w hw
    unfold edgeW
    rw [hadj]
    simp only [Option.some_bind, Option.bind_some]
    exact lookup_eq_of_mem_nodup adj hadjnd x w hw
  -- visited nodes (and s) are frozen by the relaxation
  have hfrozen : ∀ v ∈ vs, D' v = D v ∧ P' v = P v := by
    intro v hv
    rcases hpt v with ⟨⟨h1, h2⟩, _⟩ | ⟨w, hw, hlt, _, _⟩
    · exact ⟨h1, h2⟩
    · obtain ⟨qv, hqv⟩ := hinv.hVisFin v hv
      have hle : ((qv : ℚ) : WithTop ℚ) ≤ ((qc : ℚ) : WithTop ℚ) :=
        hinv.hMono v hv qv hqv c hcU _ hqc
      have hwnn : 0 ≤ w := hadjnn (v, w) hw
      rw [hqv] at hlt
      simp only [jsLt, decide_eq_true_eq] at hlt
      have h1 : (qc + w : ℚ) < qv := by exact_mod_cast hlt
      have h2 : (qv : ℚ) ≤ qc := by exact_mod_cast hle
      linarith
  have hsfrozen : D' s = some ((0 : ℚ) : WithTop ℚ) ∧ P' s = none := by
    rcases hpt s with ⟨⟨h1, h2⟩, _⟩ | ⟨w, hw, hlt, _, _⟩
    · rw [h1, h2]
      exact ⟨hinv.hDs, hinv.hPs⟩
    · have hwnn : 0 ≤ w := hadjnn (s, w) hw
      rw [hinv.hDs] at hlt
      simp only [jsLt, decide_eq_true_eq] at hlt
      have h1 : (qc + w : ℚ) < 0 := by exact_mod_cast hlt
      linarith
  refine ⟨?_, hinv.hUnd.erase c, ?_, ?_, ?_, hsfrozen.1, hsfrozen.2, ?_, ?_, ?_, ?_, ?_, ?_, ?_⟩
  · exact fun x hx => hinv.hUsub (List.mem_of_mem_erase hx)
  · rw [List.nodup_append]
    exact ⟨hinv.hvsnd, List.nodup_singleton c,
      fun a ha hb => hcnvs ((List.mem_singleton.mp hb) ▸ ha)⟩
  · intro x
    rw [List.mem_append, List.mem_singleton]
    constructor
    · rintro (hx | hx)
      · obtain ⟨hk, hnu⟩ := (hinv.hvsU x).mp hx
        exact ⟨hk, fun h => hnu (List.mem_of_mem_erase h)⟩
      · subst hx
        refine ⟨hck, fun h => ?_⟩
        exact ((hinv.hUnd.mem_erase_iff).mp h).1 rfl
    · rintro ⟨hk, hnu⟩
      by_cases hxc : x = c
      · exact Or.inr hxc
      · left
        rw [hinv.hvsU x]
        refine ⟨hk, fun hxU => hnu ?_⟩
        exact (hinv.hUnd.mem_erase_iff).mpr ⟨hxc, hxU⟩
  · intro x
    rcases hpt x with ⟨⟨h1, _⟩, _⟩ | ⟨w, hw, hlt, hup, _⟩
    · rw [h1]
      exact hinv.hDsome x
    · rw [hup]
      simp only [Option.isSome_some, true_iff]
      have hDx : (D x).isSome := by
        cases hDx : D x with
        | none => rw [hDx] at hlt; cases hlt
        | some v => rfl
      exact (hinv.hDsome x).mp hDx
  · intro x q hx
    rcases hpt x with ⟨⟨h1, _⟩, _⟩ | ⟨w, hw, hlt, hup, _⟩
    · rw [h1] at hx
      exact hinv.hDnn x q hx
    · rw [hup, Option.some_inj] at hx
      have hq : (q : ℚ) = qc + w := by exact_mod_cast hx.symm
      have hwnn : 0 ≤ w := hadjnn (x, w) hw
      rw [hq]
      linarith
  · intro x q hx
    rcases hpt x with ⟨⟨h1, _⟩, _⟩ | ⟨w, hw, hlt, hup, _⟩
    · rw [h1] at hx
      exact hinv.hWit x q hx
    · rw [hup, Option.some_inj] at hx
      have hq : (q : ℚ) = qc + w := by exact_mod_cast hx.symm
      obtain ⟨p, hh, hl, hwW⟩ := hinv.hWit c qc hqc
      have hpne : p ≠ [] := by
        intro hpe
        rw [hpe] at hh
        cases hh
      refine ⟨p ++ [x], ?_, List.getLast?_concat p, ?_⟩
      · rw [List.head?_append_of_ne_nil p hpne]
        exact hh
      · rw [hq]
        exact walkW_append_last g p c x qc w hl hwW (hedgec x w hw)
  · intro x q hx hxs
    rcases hpt x with ⟨⟨h1, h2⟩, _⟩ | ⟨w, hw, hlt, hup, hup2⟩
    · rw [h1] at hx
      obtain ⟨c₀, hc₀⟩ := hinv.hPfin x q hx hxs
      exact ⟨c₀, by rw [h2]; exact hc₀⟩
    · exact ⟨c, hup2⟩
  · intro x c₀ hxc₀
    rcases hpt x with ⟨⟨h1, h2⟩, _⟩ | ⟨w, hw, hlt, hup, hup2⟩
    · rw [h2] at hxc₀
      obtain ⟨qc₀, w₀, hDc₀, hedge, hDx, hcvs, hidx⟩ := hinv.hPrev x c₀ hxc₀
      refine ⟨qc₀, w₀, ?_, hedge, ?_, List.mem_append.mpr (Or.inl hcvs), ?_⟩
      · rw [(hfrozen c₀ hcvs).1]
        exact hDc₀
      · rw [h1]
        exact hDx
      · intro hxvs'
        rw [List.mem_append, List.mem_singleton] at hxvs'
        rw [rankIn_append_of_mem c₀ vs [c] hcvs]
        rcases hxvs' with hxvs | hxc
        · rw [rankIn_append_of_mem x vs [c] hxvs]
          exact hidx hxvs
        · subst hxc
          rw [rankIn_concat_self x vs hcnvs]
          have := rankIn_lt_length c₀ vs hcvs
          omega
    · rw [hup2, Option.some_inj] at hxc₀
      subst hxc₀
      refine ⟨qc, w, hfixD, hedgec x w hw, hup, List.mem_append.mpr (Or.inr (List.mem_singleton_self c)), ?_⟩
      intro hxvs'
      rw [List.mem_append, List.mem_singleton] at hxvs'
      rcases hxvs' with hxvs | hxc
      · exfalso
        obtain ⟨qv, hqv⟩ := hinv.hVisFin x hxvs
        have hle : ((qv : ℚ) : WithTop ℚ) ≤ ((qc : ℚ) : WithTop ℚ) :=
          hinv.hMono x hxvs qv hqv c hcU _ hqc
        have hwnn : 0 ≤ w := hadjnn (x, w) hw
        rw [hqv] at hlt
        simp only [jsLt, decide_eq_true_eq] at hlt
        have hlt' : (qc + w : ℚ) < qv := by exact_mod_cast hlt
        have hle' : (qv : ℚ) ≤ qc := by exact_mod_cast hle
        linarith
      · exfalso
        rw [hxc, hqc] at hlt
        simp only [jsLt, decide_eq_true_eq] at hlt
        have hlt' : (qc + w : ℚ) < qc := by exact_mod_cast hlt
        have hwnn : 0 ≤ w := hadjnn (x, w) hw
        linarith
  · intro v hv adjv hadjv bw hbw
    obtain ⟨b1, b2⟩ := bw
    rw [List.mem_append, List.mem_singleton] at hv
    rcases hv with hv | hv
    · have hDv : D' v = D v := (hfrozen v hv).1
      have hold := hinv.hRel v hv adjv hadjv (b1, b2) hbw
      rw [hDv]
      rcases hpt b1 with ⟨⟨h1, _⟩, _⟩ | ⟨w', hw', hlt', hup, _⟩
      · rw [h1]
        exact hold
      · rw [hup]
        cases hadd : jsAdd (D v) b2 with
        | none => rfl
        | some a =>
          rw [hadd] at hold
          cases hDb : D b1 with
          | none => rw [hDb] at hlt'; cases hlt'
          | some db =>
            rw [hDb] at hold hlt'
            simp only [jsLt, decide_eq_true_eq] at hlt'
            simp only [jsLt, decide_eq_false_iff_not, not_lt] at hold ⊢
            exact le_trans (le_of_lt hlt') hold
    · subst hv
      have hadjv' : adj = adjv := by
        rw [hadjv] at hadj
        exact (Option.some_inj.mp hadj).symm
      subst hadjv'
      rw [hfixD]
      have hadd : jsAdd (some ((qc : ℚ) : WithTop ℚ)) b2 =
          some (((qc + b2 : ℚ)) : WithTop ℚ) := by
        show some ((qc : WithTop ℚ) + (b2 : WithTop ℚ)) = _
        rw [← WithTop.coe_add]
      rw [hadd]
      rcases hpt b1 with ⟨⟨h1, _⟩, hni⟩ | ⟨w', hw', hlt', hup, _⟩
      · rw [h1]
        exact hni b2 hbw
      · have hww : w' = b2 :=
          mem_unique_of_nodup adj hadjnd b1 w' b2 hw' hbw
        rw [hup, hww]
        simp [jsLt]
  · intro v hv qv hqv u hu du hdu
    have huU : u ∈ U := List.mem_of_mem_erase hu
    rw [List.mem_append, List.mem_singleton] at hv
    have hduc : D' u = D u ∨ ∃ w' : ℚ, (u, w') ∈ adj ∧
        D' u = some (((qc + w' : ℚ)) : WithTop ℚ) := by
      rcases hpt u with ⟨⟨h1, _⟩, _⟩ | ⟨w', hw', _, hup, _⟩
      · exact Or.inl h1
      · exact Or.inr ⟨w', hw', hup⟩
    rcases hv with hv | hv
    · have hDv : D' v = D v := (hfrozen v hv).1
      rw [hDv] at hqv
      rcases hduc with h1 | ⟨w', hw', hup⟩
      · rw [h1] at hdu
        exact hinv.hMono v hv qv hqv u huU du hdu
      · rw [hup, Option.some_inj] at hdu
        have hle : ((qv : ℚ) : WithTop ℚ) ≤ ((qc : ℚ) : WithTop ℚ) :=
          hinv.hMono v hv qv hqv c hcU _ hqc
        have hwnn : 0 ≤ w' := hadjnn (u, w') hw'
        rw [← hdu]
        have hle' : (qv : ℚ) ≤ qc := by exact_mod_cast hle
        exact_mod_cast (by linarith : (qv : ℚ) ≤ qc + w')
    · subst hv
      rw [hfixD, Option.some_inj] at hqv
      have hqv' : (qv : ℚ) = qc := by exact_mod_cast hqv.symm
      subst hqv'
      rcases hduc with h1 | ⟨w', hw', hup⟩
      · rw [h1] at hdu
        have := hargmin u huU
        rw [hdu, hqc] at this
        simp only [jsLt, decide_eq_false_iff_not, not_lt] at this
        exact this
      · rw [hup, Option.some_inj] at hdu
        have hwnn : 0 ≤ w' := hadjnn (u, w') hw'
        rw [← hdu]
        exact_mod_cast (by linarith : (qv : ℚ) ≤ qv + w')
  · intro v hv
    rw [List.mem_append, List.mem_singleton] at hv
    rcases hv with hv | hv
    · obtain ⟨qv, hqv⟩ := hinv.hVisFin v hv
      exact ⟨qv, by rw [(hfrozen v hv).1]; exact hqv⟩
    · subst hv
      exact ⟨qc, hfixD⟩

theorem dijkstraLoop_cons_pair (g : Graph) (endK u : Coord) (us : List Coord)
    (D : DistM) (P : PrevM) :
    dijkstraLoop g endK (u :: us) (D, P) =
      if D (selectMin D u us) = some (⊤ : WithTop ℚ) then (D, P)
      else if selectMin D u us = endK then (D, P)
      else dijkstraLoop g endK ((u :: us).erase (selectMin D u us))
        (relax ((g.lookup (selectMin D u us)).getD []) (selectMin D u us) (D, P)) := by
  rw [dijkstraLoop_cons]

theorem dijkstraLoop_master (g : Graph) (s e : Coord) (hWF : WFgraph g)
    (hnn : NonnegW g) :
    ∀ (n : Nat) (U : List Coord), U.length ≤ n →
      ∀ (D : DistM) (P : PrevM) (vs : List Coord),
      DijkInv g s U D P vs → (e ∈ nodeKeys g → e ∈ U) →
      ∃ U' vs',
        DijkInv g s U' (dijkstraLoop g e U (D, P)).1 (dijkstraLoop g e U (D, P)).2 vs' ∧
        (e ∈ nodeKeys g → e ∈ U') ∧
        (U' = [] ∨
         (∀ u ∈ U', (dijkstraLoop g e U (D, P)).1 u = some (⊤ : WithTop ℚ)) ∨
         (e ∈ U' ∧ (dijkstraLoop g e U (D, P)).1 e ≠ some (⊤ : WithTop ℚ) ∧
          ∀ u ∈ U', jsLt ((dijkstraLoop g e U (D, P)).1 u)
            ((dijkstraLoop g e U (D, P)).1 e) = false)) := by
  intro n
  induction n with
  | zero =>
    intro U hU D P vs hinv heU
    have hUnil : U = [] := List.length_eq_zero.mp (Nat.le_zero.mp hU)
    subst hUnil
    rw [dijkstraLoop_nil]
    exact ⟨[], vs, hinv, fun h => absurd (heU h) (by simp), Or.inl rfl⟩
  | succ n ih =>
    intro U hU D P vs hinv heU
    cases U with
    | nil =>
      rw [dijkstraLoop_nil]
      exact ⟨[], vs, hinv, fun h => absurd (heU h) (by simp), Or.inl rfl⟩
    | cons u us =>
      rw [dijkstraLoop_cons_pair]
      have hcU : selectMin D u us ∈ u :: us := selectMin_mem D u us
      have hargmin := jsLt_selectMin D u us
      by_cases h1 : D (selectMin D u us) = some (⊤ : WithTop ℚ)
      · rw [if_pos h1]
        refine ⟨u :: us, vs, hinv, heU, Or.inr (Or.inl ?_)⟩
        intro x hx
        have hxk : x ∈ nodeKeys g := hinv.hUsub hx
        obtain ⟨dx, hdx⟩ := Option.isSome_iff_exists.mp
          ((hinv.hDsome x).mpr (Or.inl hxk))
        have hfx := hargmin x hx
        rw [hdx, h1] at hfx
        simp only [jsLt, decide_eq_false_iff_not, not_lt, top_le_iff] at hfx
        show D x = some (⊤ : WithTop ℚ)
        rw [hdx, hfx]
      · rw [if_neg h1]
        by_cases h2 : selectMin D u us = e
        · rw [if_pos h2]
          refine ⟨u :: us, vs, hinv, heU,
            Or.inr (Or.inr ⟨h2 ▸ hcU, h2 ▸ h1, ?_⟩)⟩
          intro x hx
          rw [← h2]
          exact hargmin x hx
        · rw [if_neg h2]
          have hck : selectMin D u us ∈ nodeKeys g := hinv.hUsub hcU
          obtain ⟨adj, hadj⟩ := Option.isSome_iff_exists.mp
            ((mem_nodeKeys_iff_lookup g (selectMin D u us)).mp hck)
          have hlookup : (g.lookup (selectMin D u us)).getD [] = adj := by
            rw [hadj]
            rfl
          rw [hlookup]
          have hstep := dijkInv_step g s hWF hnn (u :: us) D P vs hinv
            (selectMin D u us) hcU hargmin h1 adj hadj
          have hlen : ((u :: us).erase (selectMin D u us)).length ≤ n := by
            rw [List.length_erase, if_pos hcU]
            simp only [List.length_cons] at hU ⊢
            omega
          have heU' : e ∈ nodeKeys g → e ∈ (u :: us).erase (selectMin D u us) := by
            intro he
            exact hinv.hUnd.mem_erase_iff.mpr
              ⟨fun hec => h2 hec.symm, heU he⟩
          exact ih ((u :: us).erase (selectMin D u us)) hlen
            (relax adj (selectMin D u us) (D, P)).1
            (relax adj (selectMin D u us) (D, P)).2
            (vs ++ [selectMin D u us]) hstep heU'

theorem walkW_append_last_inv (g : Graph) :
    ∀ (p : List Coord) (x : Coord) (q : ℚ), p ≠ [] → walkW g (p ++ [x]) = some q →
      ∃ (y : Coord) (q' w : ℚ), p.getLast? = some y ∧ walkW g p = some q' ∧
        edgeW g y x = some w ∧ q = q' + w := by
  intro p
  induction p with
  | nil => intro x q hne _; exact absurd rfl hne
  | cons a rest ih =>
    intro x q _ hw
    cases rest with
    | nil =>
      simp only [List.cons_append, List.nil_append] at hw
      simp only [walkW] at hw
      cases hax : edgeW g a x with
      | none => rw [hax] at hw; cases hw
      | some w =>
        rw [hax] at hw
        simp only [Option.some_bind, Option.bind_some, Option.map_some,
          Option.map_some', Option.some_inj] at hw
        exact ⟨a, 0, w, rfl, rfl, hax, by rw [← hw]; ring⟩
    | cons b rest' =>
      have hbne : (b :: rest') ≠ [] := by simp
      simp only [List.cons_append] at hw
      simp only [walkW] at hw
      cases hab : edgeW g a b with
      | none => rw [hab] at hw; cases hw
      | some w₀ =>
        rw [hab] at hw
        simp only [Option.some_bind, Option.bind_some] at hw
        cases hr : walkW g (b :: (rest' ++ [x])) with
        | none => rw [hr] at hw; cases hw
        | some qr =>
          rw [hr] at hw
          simp only [Option.map_some, Option.map_some', Option.some_inj] at hw
          have hr' : walkW g ((b :: rest') ++ [x]) = some qr := by
            simp only [List.cons_append]
            exact hr
          obtain ⟨y, q', w, hlast, hwalk, hedge, heq⟩ := ih x qr hbne hr'
          refine ⟨y, w₀ + q', w, ?_, ?_, hedge, ?_⟩
          · rw [List.getLast?_cons_cons]
            exact hlast
          · simp only [walkW]
            rw [hab, hwalk]
            rfl
          · rw [← hw, heq]
            ring

theorem reconstruct_spec (g : Graph) (s : Coord) (D : DistM) (P : PrevM)
    (vs : List Coord)
    (hDs : D s = some ((0 : ℚ) : WithTop ℚ))
    (hPfin : ∀ x (q : ℚ), D x = some ((q : ℚ) : WithTop ℚ) → x ≠ s → ∃ c, P x = some c)
    (hPrev : ∀ x c, P x = some c → ∃ (qc w : ℚ),
      D c = some ((qc : ℚ) : WithTop ℚ) ∧ edgeW g c x = some w ∧
      D x = some (((qc + w : ℚ)) : WithTop ℚ) ∧ c ∈ vs ∧
      (x ∈ vs → rankIn vs c < rankIn vs x)) :
    ∀ (fuel : Nat) (x : Coord) (qx : ℚ) (acc : List Coord),
      D x = some ((qx : ℚ) : WithTop ℚ) →
      (match P x with | none => 0 | some c => rankIn vs c + 1) < fuel →
      ∃ walk : List Coord, reconstruct P fuel (some x) acc = walk ++ acc ∧
        walk.head? = some s ∧ walk.getLast? = some x ∧ walkW g walk = some qx := by
  intro fuel
  induction fuel with
  | zero =>
    intro x qx acc _ hrank
    exact absurd hrank (by omega)
  | succ fuel ih =>
    intro x qx acc hx hrank
    rw [reconstruct_succ]
    cases hPx : P x with
    | none =>
      by_cases hxs : x = s
      · subst hxs
        rw [reconstruct_none]
        have hq0 : (qx : ℚ) = 0 := by
          rw [hDs] at hx
          exact_mod_cast (Option.some_inj.mp hx).symm
        exact ⟨[x], rfl, rfl, rfl, by rw [hq0]; rfl⟩
      · obtain ⟨c, hc⟩ := hPfin x qx hx hxs
        rw [hPx] at hc
        cases hc
    | some c =>
      obtain ⟨qc, w, hqc, hedge, hqx', hcvs, _⟩ := hPrev x c hPx
      have hqx : (qx : ℚ) = qc + w := by
        rw [hqx'] at hx
        exact_mod_cast (Option.some_inj.mp hx).symm
      have hrank' :
          (match P c with | none => 0 | some c' => rankIn vs c' + 1) < fuel := by
        rw [hPx] at hrank
        have hrank2 : rankIn vs c + 1 < fuel + 1 := hrank
        cases hPc : P c with
        | none =>
          show 0 < fuel
          omega
        | some c' =>
          obtain ⟨_, _, _, _, _, _, hrankc'⟩ := hPrev c c' hPc
          have hcc' := hrankc' hcvs
          show rankIn vs c' + 1 < fuel
          omega
      obtain ⟨walk, hweq, hwh, hwl, hwW⟩ := ih c qc (x :: acc) hqc hrank'
      have hwne : walk ≠ [] := by
        intro hwe
        rw [hwe] at hwh
        cases hwh
      refine ⟨walk ++ [x], ?_, ?_, List.getLast?_concat walk, ?_⟩
      · rw [hweq, List.append_assoc]
        rfl
      · rw [List.head?_append_of_ne_nil walk hwne]
        exact hwh
      · rw [hqx]
        exact walkW_append_last g walk c x qc w hwl hwW hedge

theorem walk_lower_bound (g : Graph) (s : Coord) (hnn : NonnegW g)
    (U : List Coord) (D : DistM) (P : PrevM) (vs : List Coord)
    (hinv : DijkInv g s U D P vs) :
    ∀ (p : List Coord) (x : Coord) (q : ℚ), p.head? = some s →
      p.getLast? = some x → walkW g p = some q → x ∈ nodeKeys g →
      (∃ u ∈ U, ∃ qu : ℚ, D u = some ((qu : ℚ) : WithTop ℚ) ∧ qu ≤ q) ∨
      (x ∈ vs ∧ ∃ qx : ℚ, D x = some ((qx : ℚ) : WithTop ℚ) ∧ qx ≤ q) := by
  intro p
  induction p using List.reverseRecOn with
  | nil => intro x q hh _ _ _; cases hh
  | append_singleton p' x' ihp =>
    intro x q hh hl hw hxk
    have hxx : x = x' := by
      rw [List.getLast?_concat] at hl
      exact (Option.some_inj.mp hl).symm
    subst hxx
    cases hp' : p' with
    | nil =>
      subst hp'
      simp only [List.nil_append] at hh hw
      have hxs : x = s := Option.some_inj.mp hh
      simp only [walkW, Option.some_inj] at hw
      subst hxs
      by_cases hxU : x ∈ U
      · exact Or.inl ⟨x, hxU, 0, hinv.hDs, le_of_eq hw⟩
      · exact Or.inr ⟨(hinv.hvsU x).mpr ⟨hxk, hxU⟩, 0, hinv.hDs, le_of_eq hw⟩
    | cons a rest =>
      have hp'ne : p' ≠ [] := by rw [hp']; simp
      rw [List.head?_append_of_ne_nil p' hp'ne] at hh
      obtain ⟨y, q', w, hylast, hwalk', hedge, heq⟩ :=
        walkW_append_last_inv g p' x q hp'ne hw
      have hyk : y ∈ nodeKeys g := by
        rw [mem_nodeKeys_iff_lookup]
        unfold edgeW at hedge
        cases hly : g.lookup y with
        | none => rw [hly] at hedge; cases hedge
        | some adjy => rfl
      obtain ⟨adjy, hadjy⟩ : ∃ adjy, g.lookup y = some adjy := by
        unfold edgeW at hedge
        cases hly : g.lookup y with
        | none => rw [hly] at hedge; cases hedge
        | some adjy => exact ⟨adjy, rfl⟩
      have hmemadj : (x, w) ∈ adjy := by
        unfold edgeW at hedge
        rw [hadjy] at hedge
        simp only [Option.some_bind, Option.bind_some] at hedge
        exact lookup_mem adjy x w hedge
      have hwnn : 0 ≤ w := hnn (y, adjy) (lookup_mem g y adjy hadjy) (x, w) hmemadj
      rcases ihp y q' hh hylast hwalk' hyk with ⟨u, huU, qu, hqu, hle⟩ | ⟨hyvs, qy, hqy, hle⟩
      · exact Or.inl ⟨u, huU, qu, hqu, by rw [heq]; linarith⟩
      · have hrel := hinv.hRel y hyvs adjy hadjy (x, w) hmemadj
        rw [hqy] at hrel
        have hadd : jsAdd (some ((qy : ℚ) : WithTop ℚ)) w =
            some (((qy + w : ℚ)) : WithTop ℚ) := by
          show some ((qy : WithTop ℚ) + (w : WithTop ℚ)) = _
          rw [← WithTop.coe_add]
        rw [hadd] at hrel
        obtain ⟨dx, hdx⟩ := Option.isSome_iff_exists.mp
          ((hinv.hDsome x).mpr (Or.inl hxk))
        rw [hdx] at hrel
        simp only [jsLt, decide_eq_false_iff_not, not_lt] at hrel
        have hdxfin : ∃ qx : ℚ, dx = ((qx : ℚ) : WithTop ℚ) := by
          induction dx using WithTop.recTopCoe with
          | top => exact absurd hrel (by simp)
          | coe qx => exact ⟨qx, rfl⟩
        obtain ⟨qx, hqx⟩ := hdxfin
        subst hqx
        have hqxle : (qx : ℚ) ≤ qy + w := by exact_mod_cast hrel
        by_cases hxU : x ∈ U
        · exact Or.inl ⟨x, hxU, qx, hdx, by rw [heq]; linarith⟩
        · exact Or.inr ⟨(hinv.hvsU x).mpr ⟨hxk, hxU⟩, qx, hdx, by rw [heq]; linarith⟩

/-- C2: for every well-formed graph with non-negative weights and nodes
`start`, `end`, a returned path of length ≥ 2 starts at `start`, ends at
`end`, follows only edges of the graph, and its total weight equals the
engine's `distance[end]`, which is minimal over all start-to-end walks. -/
theorem C2_shortest_path (g : Graph) (s e : Coord) (hWF : WFgraph g)
    (hnn : NonnegW g) (hs : s ∈ nodeKeys g) (he : e ∈ nodeKeys g)
    (p : List Coord) (hp : dijkstra g (some s) (some e) = some p)
    (hlen : 2 ≤ p.length) :
    p.head? = some s ∧ p.getLast? = some e ∧
    p.Chain' (fun a b => (edgeW g a b).isSome) ∧
    ∃ W : ℚ, walkW g p = some W ∧
      (dijkstraState g s e).1 e = some ((W : ℚ) : WithTop ℚ) ∧
      ∀ (q : List Coord) (Wq : ℚ), q.head? = some s → q.getLast? = some e →
        walkW g q = some Wq → W ≤ Wq := by
  have hred : dijkstra g (some s) (some e) =
      some (reconstruct (dijkstraState g s e).2 ((nodeKeys g).length + 1)
        (some e) []) := rfl
  rw [hred, Option.some_inj] at hp
  have hstate : dijkstraState g s e =
      dijkstraLoop g e (nodeKeys g) (initDist g s, fun _ => none) := rfl
  obtain ⟨U', vs', hinv', heU', hpost⟩ :=
    dijkstraLoop_master g s e hWF hnn (nodeKeys g).length (nodeKeys g)
      (le_refl _) (initDist g s) (fun _ => none) [] (dijkInv_init g s hWF)
      (fun h => h)
  rw [← hstate] at hinv' hpost
  rcases hpost with hU' | hTop | ⟨heU2, hDeTop, hmin⟩
  · exact absurd (heU' he) (by rw [hU']; simp)
  · have hDe : (dijkstraState g s e).1 e = some (⊤ : WithTop ℚ) :=
      hTop e (heU' he)
    have hPe : (dijkstraState g s e).2 e = none := by
      cases hPe : (dijkstraState g s e).2 e with
      | none => rfl
      | some c =>
        obtain ⟨qc, w, _, _, hDx, _, _⟩ := hinv'.hPrev e c hPe
        rw [hDe] at hDx
        exact absurd (Option.some_inj.mp hDx) WithTop.top_ne_coe
    rw [reconstruct_succ, hPe, reconstruct_none] at hp
    rw [← hp] at hlen
    simp at hlen
  · obtain ⟨qe, hqe⟩ :=
      isSome_not_top ((dijkstraState g s e).1 e)
        ((hinv'.hDsome e).mpr (Or.inl he)) hDeTop
    have hrank : (match (dijkstraState g s e).2 e with
        | none => 0
        | some c => rankIn vs' c + 1) < (nodeKeys g).length + 1 := by
      cases hPe : (dijkstraState g s e).2 e with
      | none =>
        show 0 < (nodeKeys g).length + 1
        omega
      | some c =>
        obtain ⟨_, _, _, _, _, hcvs, _⟩ := hinv'.hPrev e c hPe
        show rankIn vs' c + 1 < (nodeKeys g).length + 1
        have h1 : rankIn vs' c < vs'.length := rankIn_lt_length c vs' hcvs
        have h2 : vs'.length ≤ (nodeKeys g).length :=
          (List.subperm_of_subset hinv'.hvsnd
            (fun y hy => ((hinv'.hvsU y).mp hy).1)).length_le
        omega
    obtain ⟨walk, hweq, hwh, hwl, hwW⟩ :=
      reconstruct_spec g s (dijkstraState g s e).1 (dijkstraState g s e).2 vs'
        hinv'.hDs hinv'.hPfin hinv'.hPrev ((nodeKeys g).length + 1) e qe []
        hqe hrank
    rw [hweq, List.append_nil] at hp
    subst hp
    refine ⟨hwh, hwl, walkW_chain g walk (by rw [hwW]; rfl), qe, hwW, hqe, ?_⟩
    intro q Wq hqh hql hqw
    rcases walk_lower_bound g s hnn U' (dijkstraState g s e).1
        (dijkstraState g s e).2 vs' hinv' q e Wq hqh hql hqw he with
      ⟨u, huU, qu, hqu, hle⟩ | ⟨_, qx, hqx, hle⟩
    · have hm := hmin u huU
      rw [hqu, hqe] at hm
      simp only [jsLt, decide_eq_false_iff_not, not_lt] at hm
      have hm' : (qe : ℚ) ≤ qu := by exact_mod_cast hm
      linarith
    · rw [hqe] at hqx
      have hqq : (qe : ℚ) = qx := by
        exact_mod_cast Option.some_inj.mp hqx
      linarith

/-- C1 counterexample: on a graph of two disjoint road components, a
query from one component to the other does not return the engine's
explicit null-path result — it returns the single-element sequence
`[end]`. -/
theorem C1_noPath_counterexample :
    dijkstra (buildAdjacencyList distL1
        [[((0:ℚ), (0:ℚ)), ((0:ℚ), (1:ℚ))], [((5:ℚ), (5:ℚ)), ((5:ℚ), (6:ℚ))]])
      (some ((0:ℚ), (0:ℚ))) (some ((6:ℚ), (5:ℚ))) = some [((6:ℚ), (5:ℚ))] ∧
    dijkstra (buildAdjacencyList distL1
        [[((0:ℚ), (0:ℚ)), ((0:ℚ), (1:ℚ))], [((5:ℚ), (5:ℚ)), ((5:ℚ), (6:ℚ))]])
      (some ((0:ℚ), (0:ℚ))) (some ((6:ℚ), (5:ℚ))) ≠ none := by
  constructor
  · with_unfolding_all decide
  · with_unfolding_all decide

/-- C1 (amended): when `end` is absent from the node set or unreachable
from `start`, the engine returns the single-node sequence `[end]` (its
null-path result arises only from null keys); the orchestration layer's
length-< 2 check then classifies this as no valid path. -/
theorem C1_noPath_amended (g : Graph) (s e : Coord) (hWF : WFgraph g)
    (hnn : NonnegW g)
    (h : e ∉ nodeKeys g ∨
      ¬ ∃ p : List Coord, p.head? = some s ∧ p.getLast? = some e ∧
        (walkW g p).isSome) :
    dijkstra g (some s) (some e) = some [e] ∧ ([e] : List Coord).length < 2 ∧
    storeRoute (some [e]) = none := by
  have hstate : dijkstraState g s e =
      dijkstraLoop g e (nodeKeys g) (initDist g s, fun _ => none) := rfl
  obtain ⟨U', vs', hinv', heU', hpost⟩ :=
    dijkstraLoop_master g s e hWF hnn (nodeKeys g).length (nodeKeys g)
      (le_refl _) (initDist g s) (fun _ => none) [] (dijkInv_init g s hWF)
      (fun hh => hh)
  rw [← hstate] at hinv'
  have hPe : (dijkstraState g s e).2 e = none := by
    set Pf := (dijkstraState g s e).2 with hPf
    cases hPe : Pf e with
    | none => rfl
    | some c =>
      exfalso
      obtain ⟨qc, w, hqc, hedge, hDx, _, _⟩ := hinv'.hPrev e c hPe
      rcases h with h | h
      · have hks : e ∈ nodeKeys g ∨ e = s := (hinv'.hDsome e).mp (by rw [hDx]; rfl)
        rcases hks with hk | hes
        · exact h hk
        · rw [hes] at hPe
          rw [hinv'.hPs] at hPe
          exact Option.noConfusion hPe
      · obtain ⟨p0, hph, hpl, hpw⟩ := hinv'.hWit e (qc + w) hDx
        exact h ⟨p0, hph, hpl, by rw [hpw]; rfl⟩
  have hred : dijkstra g (some s) (some e) =
      some (reconstruct (dijkstraState g s e).2 ((nodeKeys g).length + 1)
        (some e) []) := rfl
  rw [hred, reconstruct_succ, hPe, reconstruct_none]
  exact ⟨rfl, by simp, rfl⟩

theorem C1_noPath_amended_witness :
    dijkstra (buildAdjacencyList distL1 [[((0:ℚ), (0:ℚ)), ((0:ℚ), (1:ℚ))]])
      (some ((0:ℚ), (0:ℚ))) (some ((9:ℚ), (9:ℚ))) = some [((9:ℚ), (9:ℚ))] ∧
    ([((9:ℚ), (9:ℚ))] : List Coord).length < 2 ∧
    storeRoute (some [((9:ℚ), (9:ℚ))]) = none :=
  C1_noPath_amended (buildAdjacencyList distL1 [[((0:ℚ), (0:ℚ)), ((0:ℚ), (1:ℚ))]])
    ((0:ℚ), (0:ℚ)) ((9:ℚ), (9:ℚ)) (by with_unfolding_all decide)
    (by with_unfolding_all decide)
    (Or.inl (by with_unfolding_all decide))

/-- The spec §8 scenario graph: nodes A(0,0), B(0,1), C(1,1), edges
A–B weight 10 and B–C weight 5, no A–C edge. -/
def gABC : Graph :=
  [(((0:ℚ), (0:ℚ)), [(((0:ℚ), (1:ℚ)), (10:ℚ))]),
   (((0:ℚ), (1:ℚ)), [(((0:ℚ), (0:ℚ)), (10:ℚ)), (((1:ℚ), (1:ℚ)), (5:ℚ))]),
   (((1:ℚ), (1:ℚ)), [(((0:ℚ), (1:ℚ)), (5:ℚ))])]

theorem C2_shortest_path_witness :
    dijkstra gABC (some ((0:ℚ), (0:ℚ))) (some ((1:ℚ), (1:ℚ))) =
      some [((0:ℚ), (0:ℚ)), ((0:ℚ), (1:ℚ)), ((1:ℚ), (1:ℚ))] ∧
    walkW gABC [((0:ℚ), (0:ℚ)), ((0:ℚ), (1:ℚ)), ((1:ℚ), (1:ℚ))] = some 15 ∧
    ([((0:ℚ), (0:ℚ)), ((0:ℚ), (1:ℚ)), ((1:ℚ), (1:ℚ))] : List Coord).head? =
      some ((0:ℚ), (0:ℚ)) ∧
    ([((0:ℚ), (0:ℚ)), ((0:ℚ), (1:ℚ)), ((1:ℚ), (1:ℚ))] : List Coord).getLast? =
      some ((1:ℚ), (1:ℚ)) ∧
    ([((0:ℚ), (0:ℚ)), ((0:ℚ), (1:ℚ)), ((1:ℚ), (1:ℚ))] : List Coord).Chain'
      (fun a b => (edgeW gABC a b).isSome) ∧
    ∃ W : ℚ,
      walkW gABC [((0:ℚ), (0:ℚ)), ((0:ℚ), (1:ℚ)), ((1:ℚ), (1:ℚ))] = some W ∧
      (dijkstraState gABC ((0:ℚ), (0:ℚ)) ((1:ℚ), (1:ℚ))).1 ((1:ℚ), (1:ℚ)) =
        some ((W : ℚ) : WithTop ℚ) ∧
      ∀ (q : List Coord) (Wq : ℚ), q.head? = some ((0:ℚ), (0:ℚ)) →
        q.getLast? = some ((1:ℚ), (1:ℚ)) → walkW gABC q = some Wq → W ≤ Wq := by
  refine ⟨by with_unfolding_all decide, by with_unfolding_all decide, ?_⟩
  exact C2_shortest_path gABC ((0:ℚ), (0:ℚ)) ((1:ℚ), (1:ℚ))
    (by with_unfolding_all decide) (by with_unfolding_all decide)
    (by with_unfolding_all decide) (by with_unfolding_all decide)
    [((0:ℚ), (0:ℚ)), ((0:ℚ), (1:ℚ)), ((1:ℚ), (1:ℚ))]
    (by with_unfolding_all decide) (by with_unfolding_all decide)
